import Mathlib

/-!
Verification of `upb/message/compare.c` (protobuf upb runtime message
equality).  The data model (messages, arrays, maps, extensions,
descriptors) follows the spec's §3 data model; the algorithms are
translated from the C source.  External collaborators (the descriptor
adapter, container accessors, the wire encoder, the unknown-field
comparator) are not part of the source file and are modelled from the
spec's interface contracts in §6.

Pointers in the C source are modelled as follows: a sub-message
minitable pointer becomes an index into a global environment of
minitables (so recursive schemas remain representable), a nullable
container/message pointer becomes an `Option`, and the pointer-identity
short-circuits (`msg1 == msg2`, `arr1 == arr2`, `map1 == map2`) become
structural identity, which is the observable content of pointer
identity for immutable operands.
-/

namespace UpbCompare

/-- Field repetition kind of a `upb_MiniTableField`: singular, repeated
(array) or map-valued. -/
inductive FieldMode where
  | singularField
  | arrayField
  | mapField
deriving DecidableEq

/-- Runtime value category of a field: raw scalar of a given byte width
(the `kUpb_FieldRep` sizes 1, 4 or 8), string/bytes view, or sub-message. -/
inductive FieldKind where
  | scalarK : Nat → FieldKind
  | strK : FieldKind
  | msgK : FieldKind
deriving DecidableEq

/-- `upb_MiniTableField`: presence discipline (explicit has-bit vs
implicit zero-is-absent), repetition mode, value kind, and the linked
sub-message minitable (an index into the minitable environment; for map
fields it designates the map-entry minitable). -/
structure MiniTableField where
  hasPresence : Bool
  mode : FieldMode
  kind : FieldKind
  subIdx : Option Nat
deriving DecidableEq

/-- `upb_MiniTable`: an ordered list of field descriptors. -/
structure MiniTable where
  fields : List MiniTableField
deriving DecidableEq

/-- The global set of minitables; sub-message links resolve here (this
models the pointer graph of linked minitables, which may be cyclic for
recursive schemas). -/
abbrev TableEnv := List MiniTable

/-- `upb_MiniTable_GetSubMessageTable` / `upb_MiniTableExtension_GetSubMessage`:
resolve a field's linked sub-minitable. -/
def resolveSub (env : TableEnv) (f : MiniTableField) : MiniTable :=
  match f.subIdx with
  | none => ⟨[]⟩
  | some i => env.getD i ⟨[]⟩

/-- `upb_MiniTableExtension`: a globally unique extension identity plus
its field metadata.  Pointer identity of extension descriptors in C is
modelled by structural identity of this record. -/
structure ExtEntry where
  extId : Nat
  fld : MiniTableField
deriving DecidableEq

mutual
/-- `upb_MessageValue`: tagged union of a field's runtime value.  Scalars
are raw bit patterns (Nat), strings/bytes are their byte content, and
array/map/sub-message slots hold nullable handles. -/
inductive Val where
  | scalar : Nat → Val
  | str : List Nat → Val
  | arr : Option UArr → Val
  | mp : Option UMap → Val
  | sub : Option Msg → Val

/-- `upb_Array`: element size class (log2 of the element byte width) and
the element sequence. -/
inductive UArr where
  | mk : Nat → List Val → UArr

/-- `upb_Map`: the key/value entries in internal traversal order. -/
inductive UMap where
  | mk : List (Val × Val) → UMap

/-- `upb_Message`: per-declared-field slots (has-bit plus stored value,
aligned with the minitable's field list), the extension list in storage
order, and the unknown-data bytes. -/
inductive Msg where
  | mk : List (Bool × Val) → List (ExtEntry × Val) → List Nat → Msg
end

mutual

/-- Structural equality of runtime values.  Pointer equality of
immutable C objects implies structural equality of their models; the
identity short-circuits of the source are modelled with these boolean
structural comparisons. -/
def valBeq : Val → Val → Bool
  | .scalar a, .scalar b => a == b
  | .str a, .str b => a == b
  | .arr none, .arr none => true
  | .arr (some a), .arr (some b) => arrBeq a b
  | .mp none, .mp none => true
  | .mp (some a), .mp (some b) => mapBeq a b
  | .sub none, .sub none => true
  | .sub (some a), .sub (some b) => msgBeq a b
  | _, _ => false
termination_by structural a => a

def arrBeq : UArr → UArr → Bool
  | .mk n1 l1, .mk n2 l2 => n1 == n2 && valListBeq l1 l2
termination_by structural a => a

def mapBeq : UMap → UMap → Bool
  | .mk l1, .mk l2 => entryListBeq l1 l2
termination_by structural a => a

def msgBeq : Msg → Msg → Bool
  | .mk f1 e1 u1, .mk f2 e2 u2 =>
    slotListBeq f1 f2 && (extValListBeq e1 e2 && u1 == u2)
termination_by structural a => a

def valListBeq : List Val → List Val → Bool
  | [], [] => true
  | v1 :: t1, v2 :: t2 => valBeq v1 v2 && valListBeq t1 t2
  | _, _ => false
termination_by structural a => a

def entryListBeq : List (Val × Val) → List (Val × Val) → Bool
  | [], [] => true
  | (k1, v1) :: t1, (k2, v2) :: t2 =>
    valBeq k1 k2 && (valBeq v1 v2 && entryListBeq t1 t2)
  | _, _ => false
termination_by structural a => a

def slotListBeq : List (Bool × Val) → List (Bool × Val) → Bool
  | [], [] => true
  | (b1, v1) :: t1, (b2, v2) :: t2 =>
    (b1 == b2) && (valBeq v1 v2 && slotListBeq t1 t2)
  | _, _ => false
termination_by structural a => a

def extValListBeq : List (ExtEntry × Val) → List (ExtEntry × Val) → Bool
  | [], [] => true
  | (e1, v1) :: t1, (e2, v2) :: t2 =>
    (e1 == e2) && (valBeq v1 v2 && extValListBeq t1 t2)
  | _, _ => false
termination_by structural a => a

end

/-- Structural equality lifted to nullable handles: two handles are the
same iff both are null or both are non-null with equal contents. -/
def obeq {A : Type} (p : A → A → Bool) : Option A → Option A → Bool
  | none, none => true
  | some a, some b => p a b
  | _, _ => false

/-- Duplicate-freedom of a list under a boolean equality. -/
def nodupByB {A : Type} (p : A → A → Bool) : List A → Bool
  | [] => true
  | x :: t => t.all (fun y => !p x y) && nodupByB p t

/-- Identity of extension descriptors (pointer identity in C becomes
structural identity of the descriptor record). -/
def extEntryBeq (a b : ExtEntry) : Bool := decide (a = b)

/-- Accessor: element size class of an array (`_upb_Array_ElemSizeLg2`). -/
def UArr.elemSizeLg2 : UArr → Nat
  | .mk n _ => n

/-- Accessor: element sequence of an array. -/
def UArr.elems : UArr → List Val
  | .mk _ l => l

/-- Accessor: entries of a map in internal traversal order. -/
def UMap.entries : UMap → List (Val × Val)
  | .mk l => l

/-- Accessor: the declared-field slots of a message. -/
def Msg.fieldSlots : Msg → List (Bool × Val)
  | .mk f _ _ => f

/-- Accessor: the extension list of a message
(`_upb_Message_Getexts`). -/
def Msg.exts : Msg → List (ExtEntry × Val)
  | .mk _ e _ => e

/-- Accessor: the unknown-data bytes of a message
(`upb_Message_GetUnknown`). -/
def Msg.unknownData : Msg → List Nat
  | .mk _ _ u => u

/-- The default slot content of a field that was never stored: cleared
has-bit and all-zero bytes (C messages are arena-allocated zeroed). -/
def defaultSlot : Bool × Val := (false, Val.scalar 0)

/-- `_upb_Message_DataPtr` + `_upb_MiniTableField_DataCopy`: read field
number `i`'s has-bit and stored value out of the message. -/
def Msg.fieldData (msg : Msg) (i : Nat) : Bool × Val :=
  msg.fieldSlots.getD i defaultSlot

/-- `upb_MiniTable_FieldCount`. -/
def MiniTable.fieldCount (mt : MiniTable) : Nat := mt.fields.length

/-- `upb_Message_ExtensionCount`. -/
def Msg.extensionCount (msg : Msg) : Nat := msg.exts.length

/-- `upb_MiniTableField_IsArray`. -/
def MiniTableField.isArray (f : MiniTableField) : Bool :=
  f.mode = FieldMode.arrayField

/-- `upb_MiniTableField_IsMap`. -/
def MiniTableField.isMap (f : MiniTableField) : Bool :=
  f.mode = FieldMode.mapField

/-- `upb_MiniTableField_IsSubMessage` (`_upb_IsStringView` is its
`strK` sibling): dispatch on the field's value kind. -/
def MiniTableField.isSubMessage (f : MiniTableField) : Bool :=
  f.kind = FieldKind.msgK

/-- Union read `val.array_val`: the array handle stored in a value
(reading a non-array slot through this member yields unspecified bits in
C; the model returns a null handle). -/
def Val.arrayVal : Val → Option UArr
  | .arr h => h
  | _ => none

/-- Union read `val.map_val`. -/
def Val.mapVal : Val → Option UMap
  | .mp h => h
  | _ => none

/-- Union read `val.msg_val`, together with the null-pointer convention
of `upb_Message_IsEqual`: a null message pointer behaves as an empty
message once the pointer-identity short-circuit has been passed. -/
def Val.msgVal : Val → Msg
  | .sub (some m) => m
  | _ => Msg.mk [] [] []

/-- Union read of the raw scalar bit pattern. -/
def Val.scalarBits : Val → Nat
  | .scalar b => b
  | _ => 0

/-- Union read of the string/bytes view content. -/
def Val.strBytes : Val → List Nat
  | .str s => s
  | _ => []

/-- `upb_Array_Size`, with the C callers' convention
`arr ? upb_Array_Size(arr) : 0` for nullable handles. -/
def arrSizeO : Option UArr → Nat
  | none => 0
  | some a => a.elems.length

/-- `upb_Map_Size`, with the null-handle-is-size-0 convention. -/
def mapSizeO : Option UMap → Nat
  | none => 0
  | some mp => mp.entries.length

/-- Entries reachable by `upb_Map_Next` from a (nullable) map handle. -/
def mapEntriesO : Option UMap → List (Val × Val)
  | none => []
  | some mp => mp.entries

/-- `upb_Array_Get`: positional element read. -/
def arrGet (a : UArr) (i : Nat) : Val := a.elems.getD i (Val.scalar 0)

/-- Modelled from the spec (§6 Array/Map accessors, external to the
source file): `upb_Map_Get` looks a key up in the map; the C
`_upb_Message_Getext` looks an extension descriptor up in the extension
list.  Both are first-match association lookups under the given key
equality. -/
def assocFindB {α β : Type} (p : α → α → Bool) : List (α × β) → α → Option β
  | [], _ => none
  | (k, v) :: t, key => if p k key then some v else assocFindB p t key

/-- Modelled from the spec (§3 invariants, external
`_upb_MiniTableField_DataIsZero`): a raw field value is zero iff its
bytes are all zero — zero scalar bits, zero-length/zero-pointer string
view, null container or message handle. -/
def Val.isZeroData : Val → Bool
  | .scalar b => b = 0
  | .str s => s.isEmpty
  | .arr h => h.isNone
  | .mp h => h.isNone
  | .sub h => h.isNone

/-- Modelled from the spec (§4.4 step 2, external
`_upb_MiniTableField_DataEquals`): raw value equality at the field's
representation — byte-width bit-pattern comparison for scalars, content
comparison (`upb_StringView_IsEqual`) for string/bytes views. -/
def dataEquals (f : MiniTableField) (v1 v2 : Val) : Bool :=
  match f.kind with
  | .scalarK w => decide (v1.scalarBits % 2 ^ (8 * w) = v2.scalarBits % 2 ^ (8 * w))
  | .strK => decide (v1.strBytes = v2.strBytes)
  | .msgK => valBeq v1 v2

/-- The presence filter of `upb_Message_NextBaseField` (compare.c lines
44-55): an explicit-presence field is yielded iff its has-bit is set; an
implicit-presence field is skipped when its raw value is zero, and an
array/map field is additionally skipped when its size is 0. -/
def fieldYields (f : MiniTableField) (hb : Bool) (v : Val) : Bool :=
  if f.hasPresence then hb
  else if v.isZeroData then false
  else if f.isArray then decide (arrSizeO v.arrayVal ≠ 0)
  else if f.isMap then decide (mapSizeO v.mapVal ≠ 0)
  else true

/-- The scan loop of `upb_Message_NextBaseField`, walking the remaining
field descriptors (`rest`) whose first element has index `i`, and
returning the first present field together with its index and value. -/
def nextBaseFieldAux (msg : Msg) : Nat → List MiniTableField →
    Option (Nat × MiniTableField × Val)
  | _, [] => none
  | i, f :: rest =>
    if fieldYields f (msg.fieldData i).1 (msg.fieldData i).2 then
      some (i, f, (msg.fieldData i).2)
    else nextBaseFieldAux msg (i + 1) rest

/-- `upb_Message_NextBaseField`.  The C cursor holds the previously
yielded index and starts at `kUpb_BaseField_Begin = (size_t)-1`, whose
pre-increment wraps to 0; the model's cursor `s` holds the equivalent
first candidate index (so `Begin` is 0 and a call after yielding index
`i` passes `i + 1`). -/
def nextBaseField (mt : MiniTable) (msg : Msg) (s : Nat) :
    Option (Nat × MiniTableField × Val) :=
  nextBaseFieldAux msg s (mt.fields.drop s)

/-- The full sequence produced by iterating `upb_Message_NextBaseField`
from cursor position `s` to exhaustion (same scan as
`nextBaseFieldAux`, collecting every yielded field). -/
def baseSeqAux (msg : Msg) : Nat → List MiniTableField →
    List (Nat × MiniTableField × Val)
  | _, [] => []
  | i, f :: rest =>
    if fieldYields f (msg.fieldData i).1 (msg.fieldData i).2 then
      (i, f, (msg.fieldData i).2) :: baseSeqAux msg (i + 1) rest
    else baseSeqAux msg (i + 1) rest

/-- All fields yielded by a full base-field iteration of `msg`. -/
def baseSeq (mt : MiniTable) (msg : Msg) : List (Nat × MiniTableField × Val) :=
  baseSeqAux msg 0 mt.fields

/-- `upb_Message_IsEmpty` (compare.c lines 83-90): no extensions and the
first `upb_Message_NextBaseField` call yields nothing. -/
def isEmptyMsg (mt : MiniTable) (msg : Msg) : Bool :=
  if msg.extensionCount ≠ 0 then false
  else (nextBaseField mt msg 0).isNone

/-- `_upb_IsStringView`: the field's C type is String or Bytes (the
model merges the two ctypes into `strK`; both compare by content). -/
def MiniTableField.isStringView (f : MiniTableField) : Bool :=
  f.kind = FieldKind.strK

/-- Element byte width `1U << _upb_Array_ElemSizeLg2(arr1)` of a
nullable handle.  On a null handle the C source performs this read
unconditionally (compare.c line 133) — undefined behaviour; the total
model returns width 1, which never influences a result because the
subsequent loop is empty (sizes are 0).  `arrIsEqualR` below makes the
null read itself observable. -/
def elemWidthO : Option UArr → Nat
  | none => 1
  | some a => 1 <<< a.elemSizeLg2

/-- The elements traversed by the `upb_Array_Get` loops of
`_upb_Array_IsEqual`. -/
def arrElemsO : Option UArr → List Val
  | none => []
  | some a => a.elems

/-- The common shape of the three element loops of `_upb_Array_IsEqual`
(`for i in 0..size1: if !eq(arr1[i], arr2[i]) return false; return
true`), as a positional lock-step traversal of the two element lists. -/
def lockstepAll (p : Val → Val → Bool) : List Val → List Val → Bool
  | [], [] => true
  | v1 :: t1, v2 :: t2 => p v1 v2 && lockstepAll p t1 t2
  | _, _ => false

/-- Loop of `_upb_Array_IsEqual` case #1 (arrays of messages): recursive
`upb_Message_IsEqual` element by element, under the field's sub-message
minitable. -/
def arrMsgElemsEq (cmp : MiniTable → Msg → Msg → Bool) (subT : MiniTable)
    (l1 l2 : List Val) : Bool :=
  lockstepAll (fun v1 v2 => cmp subT v1.msgVal v2.msgVal) l1 l2

/-- Loop of `_upb_Array_IsEqual` case #2 (arrays of strings/bytes):
`upb_StringView_IsEqual` element by element. -/
def arrStrElemsEq (l1 l2 : List Val) : Bool :=
  lockstepAll (fun v1 v2 => decide (v1.strBytes = v2.strBytes)) l1 l2

/-- Loop of `_upb_Array_IsEqual` case #3 (arrays of scalars):
`memcmp` of the two elements' bit patterns at `len` bytes. -/
def arrScalarElemsEq (len : Nat) (l1 l2 : List Val) : Bool :=
  lockstepAll
    (fun v1 v2 => decide (v1.scalarBits % 2 ^ (8 * len) = v2.scalarBits % 2 ^ (8 * len)))
    l1 l2

/-- The per-index element comparison performed by `_upb_Array_IsEqual`
at position `i` (kind dispatch as in the source; the scalar width is
read from the first array). -/
def arrElemCmpC (env : TableEnv) (cmp : MiniTable → Msg → Msg → Bool)
    (f : MiniTableField) (a1 a2 : UArr) (i : Nat) : Bool :=
  if f.isSubMessage then
    cmp (resolveSub env f) (arrGet a1 i).msgVal (arrGet a2 i).msgVal
  else if f.isStringView then decide ((arrGet a1 i).strBytes = (arrGet a2 i).strBytes)
  else
    decide ((arrGet a1 i).scalarBits % 2 ^ (8 * (1 <<< a1.elemSizeLg2)) =
      (arrGet a2 i).scalarBits % 2 ^ (8 * (1 <<< a1.elemSizeLg2)))

/-- The input region on which `_upb_Array_IsEqual` reads the element
width through a null first handle (compare.c line 133): the first
handle null, the second non-null of size 0, and a scalar element kind
(so that neither of cases #1/#2 intercepts and the size check passes). -/
def nullWidthRead (f : MiniTableField) (h1 h2 : Option UArr) : Bool :=
  match h1, h2 with
  | none, some a => !f.isSubMessage && (!f.isStringView && a.elems.isEmpty)
  | _, _ => false

/-- `_upb_Array_IsEqual` (compare.c lines 97-141): identity
short-circuit, size check, then dispatch on the element kind.  `cmp` is
the recursive `upb_Message_IsEqual`. -/
def arrIsEqualC (env : TableEnv) (cmp : MiniTable → Msg → Msg → Bool)
    (f : MiniTableField) (h1 h2 : Option UArr) : Bool :=
  if obeq arrBeq h1 h2 then true
  else if arrSizeO h1 ≠ arrSizeO h2 then false
  else if f.isSubMessage then
    arrMsgElemsEq cmp (resolveSub env f) (arrElemsO h1) (arrElemsO h2)
  else if f.isStringView then arrStrElemsEq (arrElemsO h1) (arrElemsO h2)
  else arrScalarElemsEq (elemWidthO h1) (arrElemsO h1) (arrElemsO h2)

/-- Instrumented `_upb_Array_IsEqual`: identical to `arrIsEqualC`
except that the one place where the C source reads through a possibly
null pointer — `1U << _upb_Array_ElemSizeLg2(arr1)` at compare.c line
133, evaluated before the element loop — reports `Except.error` when
`arr1` is null instead of dereferencing it.  Every other access is
null-guarded in the source (`arr ? upb_Array_Size(arr) : 0`), and the
element loops only run when both sizes are non-zero, hence on non-null
handles. -/
def arrIsEqualR (env : TableEnv) (cmp : MiniTable → Msg → Msg → Bool)
    (f : MiniTableField) (h1 h2 : Option UArr) : Except Unit Bool :=
  if obeq arrBeq h1 h2 then .ok true
  else if arrSizeO h1 ≠ arrSizeO h2 then .ok false
  else if f.isSubMessage then
    .ok (arrMsgElemsEq cmp (resolveSub env f) (arrElemsO h1) (arrElemsO h2))
  else if f.isStringView then .ok (arrStrElemsEq (arrElemsO h1) (arrElemsO h2))
  else
    match h1 with
    | none => .error ()
    | some a1 => .ok (arrScalarElemsEq (1 <<< a1.elemSizeLg2) a1.elems (arrElemsO h2))

/-- A placeholder field descriptor (reading past the end of a minitable
never happens on well-formed inputs). -/
def defaultField : MiniTableField := ⟨false, FieldMode.singularField, FieldKind.scalarK 1, none⟩

/-- `upb_MiniTable_MapValue`: the synthetic value field of a map's entry
minitable sits at index 1 (the key at index 0). -/
def mapValField (env : TableEnv) (f : MiniTableField) : MiniTableField :=
  (resolveSub env f).fields.getD 1 defaultField

/-- Per-entry value comparison of `_upb_Map_IsEqual`, dispatched on the
map's value-field kind.  The C source hoists this dispatch out of the
loop into three specialized `upb_Map_Next` loops (cases #1-#3,
compare.c lines 158-191); performing the same dispatch per entry is
extensionally identical. -/
def mapValCmpC (env : TableEnv) (cmp : MiniTable → Msg → Msg → Bool)
    (f2 : MiniTableField) (v1 v2 : Val) : Bool :=
  if f2.isSubMessage then cmp (resolveSub env f2) v1.msgVal v2.msgVal
  else if f2.isStringView then decide (v1.strBytes = v2.strBytes)
  else dataEquals f2 v1 v2

/-- One iteration of the `upb_Map_Next` loops of `_upb_Map_IsEqual`:
look the key up in `map2` (`upb_Map_Get`); a missing key is inequality,
otherwise compare the two values under the map's value field. -/
def mapStep (env : TableEnv) (cmp : MiniTable → Msg → Msg → Bool)
    (f : MiniTableField) (entries2 : List (Val × Val)) (e : Val × Val) : Bool :=
  match assocFindB valBeq entries2 e.1 with
  | none => false
  | some v2 => mapValCmpC env cmp (mapValField env f) e.2 v2

/-- `_upb_Map_IsEqual` (compare.c lines 143-192): identity
short-circuit, size check, then traverse `map1`'s entries, looking each
key up in `map2`; a missing key or an unequal value is inequality. -/
def mapIsEqualC (env : TableEnv) (cmp : MiniTable → Msg → Msg → Bool)
    (f : MiniTableField) (h1 h2 : Option UMap) : Bool :=
  if obeq mapBeq h1 h2 then true
  else if mapSizeO h1 ≠ mapSizeO h2 then false
  else (mapEntriesO h1).all (mapStep env cmp f (mapEntriesO h2))

/-- The shared per-field dispatch of `_upb_Message_BaseFieldsAreEqual`
(compare.c lines 213-223) and `_upb_Message_ExtensionsAreEqual` (lines
248-258): array, map, sub-message, else raw value equality.  Sub-table
resolution goes through the field descriptor in the model, which is
where both `upb_MiniTable_GetSubMessageTable(m, f)` and
`upb_MiniTableExtension_GetSubMessage(e)` end up. -/
def cmpFieldValC (env : TableEnv) (cmp : MiniTable → Msg → Msg → Bool)
    (f : MiniTableField) (v1 v2 : Val) : Bool :=
  if f.isArray then arrIsEqualC env cmp f v1.arrayVal v2.arrayVal
  else if f.isMap then mapIsEqualC env cmp f v1.mapVal v2.mapVal
  else if f.isSubMessage then cmp (resolveSub env f) v1.msgVal v2.msgVal
  else dataEquals f v1 v2

/-- `_upb_Message_BaseFieldsAreEqual` (compare.c lines 194-226): drive
the two base-field iterators in lock-step.  A `got1 != got2` mismatch is
exactly a length mismatch of the two yielded sequences; the defensive
`f1 != f2` pointer check is index equality within the shared minitable;
each step compares the two yielded values under `f1`. -/
def baseFieldsAreEqualC (env : TableEnv) (cmp : MiniTable → Msg → Msg → Bool)
    (mt : MiniTable) (m1 m2 : Msg) : Bool :=
  if (baseSeq mt m1).length ≠ (baseSeq mt m2).length then false
  else
    ((baseSeq mt m1).zip (baseSeq mt m2)).all fun t =>
      decide (t.1.1 = t.2.1) && cmpFieldValC env cmp t.1.2.1 t.1.2.2 t.2.2.2

/-- One iteration of the extension loop of
`_upb_Message_ExtensionsAreEqual`: look up the extension of identical
descriptor identity in `msg2` (`_upb_Message_Getext`); absence is
inequality, otherwise compare values with the per-kind dispatch. -/
def extStep (env : TableEnv) (cmp : MiniTable → Msg → Msg → Bool)
    (exts2 : List (ExtEntry × Val)) (ev : ExtEntry × Val) : Bool :=
  match assocFindB extEntryBeq exts2 ev.1 with
  | none => false
  | some v2 => cmpFieldValC env cmp ev.1.fld ev.2 v2

/-- `_upb_Message_ExtensionsAreEqual` (compare.c lines 228-262):
identical extension counts, then for every extension of `msg1` look up
the extension of identical descriptor identity in `msg2`
(`_upb_Message_Getext`) and compare values with the per-kind
dispatch. -/
def extsAreEqualC (env : TableEnv) (cmp : MiniTable → Msg → Msg → Bool)
    (m1 m2 : Msg) : Bool :=
  if m1.extensionCount ≠ m2.extensionCount then false
  else
    m1.exts.all (extStep env cmp m2.exts)

/-- Modelled from the spec (§6, external
`_upb_Message_UnknownFieldsAreEqual`): the byte-level unknown-data
comparator, an external collaborator taken as a parameter.  The fixed
maximum recursion depth 100 passed by `upb_Message_IsEqual` is part of
the collaborator's behaviour and is absorbed into the parameter. -/
abbrev UnknownCmp := List Nat → List Nat → Bool

/-- `upb_Message_IsEqual` (compare.c lines 264-280), with an explicit
recursion-depth bound `fuel`: identity short-circuit, base fields,
extensions, then the unknown-data comparator.  The C recursion is
unbounded, relying on message graphs being finite acyclic trees; `fuel`
makes that recursion structurally terminating, and the public wrapper
`upbMessageIsEqual` instantiates it with a bound that the finite
message trees can never exhaust (each recursion level strictly
decreases the joint size of the operands, which start below the
bound). -/
def msgIsEqualF (uf : UnknownCmp) (env : TableEnv) :
    Nat → MiniTable → Msg → Msg → Bool
  | 0, _, m1, m2 => msgBeq m1 m2
  | fuel + 1, mt, m1, m2 =>
    if msgBeq m1 m2 then true
    else
      baseFieldsAreEqualC env (fun mt' a b => msgIsEqualF uf env fuel mt' a b) mt m1 m2 &&
        (extsAreEqualC env (fun mt' a b => msgIsEqualF uf env fuel mt' a b) m1 m2 &&
          uf m1.unknownData m2.unknownData)

mutual

/-- Structural weight of a value (an executable size measure used to
seed the recursion bound of `upbMessageIsEqual`). -/
def valWeight : Val → Nat
  | .scalar _ => 1
  | .str _ => 1
  | .arr none => 1
  | .arr (some a) => 1 + arrWeight a
  | .mp none => 1
  | .mp (some mp) => 1 + mapWeight mp
  | .sub none => 1
  | .sub (some m) => 1 + msgWeight m

def arrWeight : UArr → Nat
  | .mk _ l => 1 + valListWeight l

def mapWeight : UMap → Nat
  | .mk l => 1 + entryListWeight l

def msgWeight : Msg → Nat
  | .mk flds exts _ => 1 + slotListWeight flds + extListWeight exts

def valListWeight : List Val → Nat
  | [] => 0
  | v :: t => valWeight v + valListWeight t

def entryListWeight : List (Val × Val) → Nat
  | [] => 0
  | (k, v) :: t => valWeight k + valWeight v + entryListWeight t

def slotListWeight : List (Bool × Val) → Nat
  | [] => 0
  | (_, v) :: t => valWeight v + slotListWeight t

def extListWeight : List (ExtEntry × Val) → Nat
  | [] => 0
  | (_, v) :: t => valWeight v + extListWeight t

end

/-- `upb_Message_IsEqual`, at a recursion bound sufficient for its two
operands (and symmetric in them). -/
def upbMessageIsEqual (uf : UnknownCmp) (env : TableEnv) (mt : MiniTable)
    (m1 m2 : Msg) : Bool :=
  msgIsEqualF uf env (msgWeight m1 + msgWeight m2 + 1) mt m1 m2

/-- Observable outcome of `upb_Message_IsExactlyEqual`: the boolean
result plus the number of scratch arenas allocated (`upb_Arena_New`)
and released (`upb_Arena_Free`) during the call. -/
structure ExactOut where
  result : Bool
  arenaAllocs : Nat
  arenaFrees : Nat
deriving DecidableEq

/-- `upb_Message_IsExactlyEqual` (compare.c lines 282-305).  The
external deterministic encoder (`upb_Encode` with options
{SkipUnknown, Deterministic}, modelled from the spec §6) is the `enc`
parameter, returning `none` on failure.  The C function encodes both
operands into a scratch arena; if either encode fails it frees the
arena and returns false; otherwise the result is equal sizes plus
`memcmp == 0`, i.e. equality of the two byte strings, and the arena is
freed on that path too. -/
def isExactlyEqualT (enc : MiniTable → Msg → Option (List Nat))
    (mt : MiniTable) (m1 m2 : Msg) : ExactOut :=
  if msgBeq m1 m2 then ⟨true, 0, 0⟩
  else
    match enc mt m1, enc mt m2 with
    | some d1, some d2 => ⟨decide (d1 = d2), 1, 1⟩
    | _, _ => ⟨false, 1, 1⟩

/-- The boolean result of `upb_Message_IsExactlyEqual`. -/
def upbMessageIsExactlyEqual (enc : MiniTable → Msg → Option (List Nat))
    (mt : MiniTable) (m1 m2 : Msg) : Bool :=
  (isExactlyEqualT enc mt m1 m2).result

/-- All elements are scalar values. -/
def allScalarVals (l : List Val) : Bool :=
  l.all fun v => match v with | .scalar _ => true | _ => false

/-- All elements are string/bytes values. -/
def allStrVals (l : List Val) : Bool :=
  l.all fun v => match v with | .str _ => true | _ => false

mutual

/-- Well-formedness of a message under its minitable, the data-model
invariants of spec §3: field slots line up with the descriptor and hold
values of the declared kind, scalar arrays carry the element width of
their field, maps have unique keys and non-null well-formed values,
extension lists have unique descriptors and well-formed values, and a
field whose has-bit claims presence holds a non-null message. -/
def wfMsgT (env : TableEnv) : MiniTable → Msg → Bool
  | mt, .mk flds exts _ =>
    decide (flds.length = mt.fields.length) &&
      (wfSlots env mt.fields flds &&
        (decide ((exts.map Prod.fst).Nodup) && wfExtsT env exts))

def wfSlots (env : TableEnv) : List MiniTableField → List (Bool × Val) → Bool
  | [], _ => true
  | _, [] => true
  | f :: fs, (hb, v) :: rest => wfSlot env f hb v && wfSlots env fs rest

/-- Well-formedness of one declared-field slot (has-bit plus value). -/
def wfSlot (env : TableEnv) : MiniTableField → Bool → Val → Bool
  | f, hb, v =>
    match f.mode with
    | .arrayField =>
      match v with
      | .arr none => true
      | .arr (some a) => wfArrT env f a
      | _ => false
    | .mapField =>
      match v with
      | .mp none => true
      | .mp (some mp) => wfMapT env f mp
      | _ => false
    | .singularField =>
      match f.kind with
      | .scalarK _ => (match v with | .scalar _ => true | _ => false)
      | .strK => (match v with | .str _ => true | _ => false)
      | .msgK =>
        match v with
        | .sub none => !(f.hasPresence && hb)
        | .sub (some m) => wfMsgT env (resolveSub env f) m
        | _ => false

def wfArrT (env : TableEnv) : MiniTableField → UArr → Bool
  | f, .mk lg2 elems =>
    match f.kind with
    | .scalarK w => decide (1 <<< lg2 = w) && allScalarVals elems
    | .strK => allStrVals elems
    | .msgK => wfMsgElems env (resolveSub env f) elems

def wfMsgElems (env : TableEnv) : MiniTable → List Val → Bool
  | _, [] => true
  | subT, v :: t =>
    (match v with | .sub (some m) => wfMsgT env subT m | _ => false) &&
      wfMsgElems env subT t

def wfMapT (env : TableEnv) : MiniTableField → UMap → Bool
  | f, .mk entries =>
    nodupByB valBeq (entries.map Prod.fst) &&
      wfMapVals env (mapValField env f) entries

def wfMapVals (env : TableEnv) : MiniTableField → List (Val × Val) → Bool
  | _, [] => true
  | f2, (_, v) :: t => wfMapVal env f2 v && wfMapVals env f2 t

/-- Well-formedness of one map value under the map's value field: the
declared kind, with message values non-null (`upb_Map` stores no null
sub-messages). -/
def wfMapVal (env : TableEnv) : MiniTableField → Val → Bool
  | f2, v =>
    match f2.kind with
    | .scalarK _ => (match v with | .scalar _ => true | _ => false)
    | .strK => (match v with | .str _ => true | _ => false)
    | .msgK =>
      match v with
      | .sub (some m) => wfMsgT env (resolveSub env f2) m
      | _ => false

def wfExtsT (env : TableEnv) : List (ExtEntry × Val) → Bool
  | [] => true
  | (e, v) :: t => wfCmpVal env e.fld v && wfExtsT env t

/-- Well-formedness of a value as an operand of `cmpFieldValC` under
field `f`: what extension values satisfy outright, and what a
base-field slot satisfies once the presence filter has yielded it. -/
def wfCmpVal (env : TableEnv) : MiniTableField → Val → Bool
  | f, v =>
    match f.mode with
    | .arrayField =>
      match v with
      | .arr none => true
      | .arr (some a) => wfArrT env f a
      | _ => false
    | .mapField =>
      match v with
      | .mp none => true
      | .mp (some mp) => wfMapT env f mp
      | _ => false
    | .singularField =>
      match f.kind with
      | .scalarK _ => (match v with | .scalar _ => true | _ => false)
      | .strK => (match v with | .str _ => true | _ => false)
      | .msgK =>
        match v with
        | .sub (some m) => wfMsgT env (resolveSub env f) m
        | _ => false

end

/-! ### The boolean structural equalities decide equality -/

theorem beq_laws :
    (∀ a b : Val, valBeq a b = true ↔ a = b) ∧
    (∀ a b : Msg, msgBeq a b = true ↔ a = b) ∧
    (∀ a b : List (ExtEntry × Val), extValListBeq a b = true ↔ a = b) ∧
    (∀ a b : List (Bool × Val), slotListBeq a b = true ↔ a = b) ∧
    (∀ a b : UMap, mapBeq a b = true ↔ a = b) ∧
    (∀ a b : List (Val × Val), entryListBeq a b = true ↔ a = b) ∧
    (∀ a b : UArr, arrBeq a b = true ↔ a = b) ∧
    (∀ a b : List Val, valListBeq a b = true ↔ a = b) := by
  refine valBeq.mutual_induct
    (fun a b => valBeq a b = true ↔ a = b)
    (fun a b => msgBeq a b = true ↔ a = b)
    (fun a b => extValListBeq a b = true ↔ a = b)
    (fun a b => slotListBeq a b = true ↔ a = b)
    (fun a b => mapBeq a b = true ↔ a = b)
    (fun a b => entryListBeq a b = true ↔ a = b)
    (fun a b => arrBeq a b = true ↔ a = b)
    (fun a b => valListBeq a b = true ↔ a = b)
    ?_ ?_ ?_ ?_ ?_ ?_ ?_ ?_ ?_ ?_ ?_ ?_ ?_ ?_ ?_ ?_ ?_ ?_ ?_ ?_ ?_ ?_ ?_ ?_
  · intro a b
    simp [valBeq]
  · intro a b
    simp [valBeq]
  · simp [valBeq]
  · intro a b ih
    simp [valBeq, ih]
  · simp [valBeq]
  · intro a b ih
    simp [valBeq, ih]
  · simp [valBeq]
  · intro a b ih
    simp [valBeq, ih]
  · intro x y h1 h2 h3 h4 h5 h6 h7 h8
    cases x with
    | scalar a =>
      cases y with
      | scalar b => exact (h1 a b rfl rfl).elim
      | str s => exact iff_of_false (fun h => Bool.false_ne_true h) (by simp)
      | arr o => exact iff_of_false (fun h => Bool.false_ne_true h) (by simp)
      | mp o => exact iff_of_false (fun h => Bool.false_ne_true h) (by simp)
      | sub o => exact iff_of_false (fun h => Bool.false_ne_true h) (by simp)
    | str s =>
      cases y with
      | scalar b => exact iff_of_false (fun h => Bool.false_ne_true h) (by simp)
      | str s2 => exact (h2 s s2 rfl rfl).elim
      | arr o => exact iff_of_false (fun h => Bool.false_ne_true h) (by simp)
      | mp o => exact iff_of_false (fun h => Bool.false_ne_true h) (by simp)
      | sub o => exact iff_of_false (fun h => Bool.false_ne_true h) (by simp)
    | arr o1 =>
      cases y with
      | scalar b =>
        cases o1 <;> exact iff_of_false (fun h => Bool.false_ne_true h) (by simp)
      | str s =>
        cases o1 <;> exact iff_of_false (fun h => Bool.false_ne_true h) (by simp)
      | arr o2 =>
        cases o1 with
        | none =>
          cases o2 with
          | none => exact (h3 rfl rfl).elim
          | some b => exact iff_of_false (fun h => Bool.false_ne_true h) (by simp)
        | some a =>
          cases o2 with
          | none => exact iff_of_false (fun h => Bool.false_ne_true h) (by simp)
          | some b => exact (h4 a b rfl rfl).elim
      | mp o2 =>
        cases o1 <;> exact iff_of_false (fun h => Bool.false_ne_true h) (by simp)
      | sub o2 =>
        cases o1 <;> exact iff_of_false (fun h => Bool.false_ne_true h) (by simp)
    | mp o1 =>
      cases y with
      | scalar b =>
        cases o1 <;> exact iff_of_false (fun h => Bool.false_ne_true h) (by simp)
      | str s =>
        cases o1 <;> exact iff_of_false (fun h => Bool.false_ne_true h) (by simp)
      | arr o2 =>
        cases o1 <;> exact iff_of_false (fun h => Bool.false_ne_true h) (by simp)
      | mp o2 =>
        cases o1 with
        | none =>
          cases o2 with
          | none => exact (h5 rfl rfl).elim
          | some b => exact iff_of_false (fun h => Bool.false_ne_true h) (by simp)
        | some a =>
          cases o2 with
          | none => exact iff_of_false (fun h => Bool.false_ne_true h) (by simp)
          | some b => exact (h6 a b rfl rfl).elim
      | sub o2 =>
        cases o1 <;> exact iff_of_false (fun h => Bool.false_ne_true h) (by simp)
    | sub o1 =>
      cases y with
      | scalar b =>
        cases o1 <;> exact iff_of_false (fun h => Bool.false_ne_true h) (by simp)
      | str s =>
        cases o1 <;> exact iff_of_false (fun h => Bool.false_ne_true h) (by simp)
      | arr o2 =>
        cases o1 <;> exact iff_of_false (fun h => Bool.false_ne_true h) (by simp)
      | mp o2 =>
        cases o1 <;> exact iff_of_false (fun h => Bool.false_ne_true h) (by simp)
      | sub o2 =>
        cases o1 with
        | none =>
          cases o2 with
          | none => exact (h7 rfl rfl).elim
          | some b => exact iff_of_false (fun h => Bool.false_ne_true h) (by simp)
        | some a =>
          cases o2 with
          | none => exact iff_of_false (fun h => Bool.false_ne_true h) (by simp)
          | some b => exact (h8 a b rfl rfl).elim
  · intro n1 l1 n2 l2 ih8
    simp [arrBeq, ih8]
  · intro l1 l2 ih6
    simp [mapBeq, ih6]
  · intro f1 e1 u1 f2 e2 u2 ih4 ih3
    simp [msgBeq, ih4, ih3]
  · simp [valListBeq]
  · intro v1 t1 v2 t2 ih1 ih8
    simp [valListBeq, ih1, ih8]
  · intro x y h1 h2
    cases x with
    | nil =>
      cases y with
      | nil => exact (h1 rfl rfl).elim
      | cons v t => exact iff_of_false (fun h => Bool.false_ne_true h) (by simp)
    | cons v t =>
      cases y with
      | nil => exact iff_of_false (fun h => Bool.false_ne_true h) (by simp)
      | cons v2 t2 => exact (h2 v t v2 t2 rfl rfl).elim
  · simp [entryListBeq]
  · intro k1 v1 t1 k2 v2 t2 ihk ihv ih6
    simp [entryListBeq, ihk, ihv, ih6, and_assoc]
  · intro x y h1 h2
    cases x with
    | nil =>
      cases y with
      | nil => exact (h1 rfl rfl).elim
      | cons q t => exact iff_of_false (fun h => Bool.false_ne_true h) (by simp)
    | cons q t =>
      obtain ⟨k1, v1⟩ := q
      cases y with
      | nil => exact iff_of_false (fun h => Bool.false_ne_true h) (by simp)
      | cons q2 t2 =>
        obtain ⟨k2, v2⟩ := q2
        exact (h2 k1 v1 t k2 v2 t2 rfl rfl).elim
  · simp [slotListBeq]
  · intro b1 v1 t1 b2 v2 t2 ih1 ih4
    simp [slotListBeq, ih1, ih4, and_assoc]
  · intro x y h1 h2
    cases x with
    | nil =>
      cases y with
      | nil => exact (h1 rfl rfl).elim
      | cons q t => exact iff_of_false (fun h => Bool.false_ne_true h) (by simp)
    | cons q t =>
      obtain ⟨b1, v1⟩ := q
      cases y with
      | nil => exact iff_of_false (fun h => Bool.false_ne_true h) (by simp)
      | cons q2 t2 =>
        obtain ⟨b2, v2⟩ := q2
        exact (h2 b1 v1 t b2 v2 t2 rfl rfl).elim
  · simp [extValListBeq]
  · intro e1 v1 t1 e2 v2 t2 ih1 ih3
    simp [extValListBeq, ih1, ih3, and_assoc]
  · intro x y h1 h2
    cases x with
    | nil =>
      cases y with
      | nil => exact (h1 rfl rfl).elim
      | cons q t => exact iff_of_false (fun h => Bool.false_ne_true h) (by simp)
    | cons q t =>
      obtain ⟨e1, v1⟩ := q
      cases y with
      | nil => exact iff_of_false (fun h => Bool.false_ne_true h) (by simp)
      | cons q2 t2 =>
        obtain ⟨e2, v2⟩ := q2
        exact (h2 e1 v1 t e2 v2 t2 rfl rfl).elim

theorem valBeq_iff (a b : Val) : valBeq a b = true ↔ a = b := beq_laws.1 a b

theorem msgBeq_iff (a b : Msg) : msgBeq a b = true ↔ a = b := beq_laws.2.1 a b

theorem mapBeq_iff (a b : UMap) : mapBeq a b = true ↔ a = b := beq_laws.2.2.2.2.1 a b

theorem arrBeq_iff (a b : UArr) : arrBeq a b = true ↔ a = b :=
  beq_laws.2.2.2.2.2.2.1 a b

theorem extEntryBeq_iff (a b : ExtEntry) : extEntryBeq a b = true ↔ a = b := by
  simp [extEntryBeq]

@[simp] theorem valBeq_refl (v : Val) : valBeq v v = true := (valBeq_iff v v).mpr rfl

@[simp] theorem msgBeq_refl (m : Msg) : msgBeq m m = true := (msgBeq_iff m m).mpr rfl

@[simp] theorem arrBeq_refl (a : UArr) : arrBeq a a = true := (arrBeq_iff a a).mpr rfl

@[simp] theorem mapBeq_refl (m : UMap) : mapBeq m m = true := (mapBeq_iff m m).mpr rfl

theorem obeq_iff {A : Type} {p : A → A → Bool} (hp : ∀ a b, p a b = true ↔ a = b) :
    ∀ o1 o2 : Option A, obeq p o1 o2 = true ↔ o1 = o2 := by
  intro o1 o2
  cases o1 <;> cases o2 <;> simp [obeq, hp]

theorem obeq_arr_iff (o1 o2 : Option UArr) : obeq arrBeq o1 o2 = true ↔ o1 = o2 :=
  obeq_iff arrBeq_iff o1 o2

theorem obeq_map_iff (o1 o2 : Option UMap) : obeq mapBeq o1 o2 = true ↔ o1 = o2 :=
  obeq_iff mapBeq_iff o1 o2

@[simp] theorem obeq_arr_refl (o : Option UArr) : obeq arrBeq o o = true :=
  (obeq_arr_iff o o).mpr rfl

@[simp] theorem obeq_map_refl (o : Option UMap) : obeq mapBeq o o = true :=
  (obeq_map_iff o o).mpr rfl

theorem valBeq_comm (a b : Val) : valBeq a b = valBeq b a := by
  rw [Bool.eq_iff_iff, valBeq_iff, valBeq_iff]
  exact eq_comm

theorem msgBeq_comm (a b : Msg) : msgBeq a b = msgBeq b a := by
  rw [Bool.eq_iff_iff, msgBeq_iff, msgBeq_iff]
  exact eq_comm

theorem nodupByB_iff {A : Type} {p : A → A → Bool} (hp : ∀ a b, p a b = true ↔ a = b) :
    ∀ l : List A, nodupByB p l = true ↔ l.Nodup := by
  intro l
  induction l with
  | nil => simp [nodupByB]
  | cons x t ih =>
    rw [nodupByB, Bool.and_eq_true, ih, List.nodup_cons]
    constructor
    · rintro ⟨hall, hnd⟩
      refine ⟨?_, hnd⟩
      intro hmem
      have := List.all_eq_true.mp hall x hmem
      rw [Bool.not_eq_eq_eq_not, Bool.not_true] at this
      exact absurd ((hp x x).mpr rfl) (by simp [this])
    · rintro ⟨hmem, hnd⟩
      refine ⟨?_, hnd⟩
      rw [List.all_eq_true]
      intro y hy
      rw [Bool.not_eq_eq_eq_not, Bool.not_true]
      cases hpb : p x y with
      | false => rfl
      | true => exact absurd (((hp x y).mp hpb) ▸ hy) hmem

/-! ### Reflexivity of the comparators -/

theorem msgIsEqualF_refl (uf : UnknownCmp) (env : TableEnv) (fuel : Nat)
    (mt : MiniTable) (m : Msg) : msgIsEqualF uf env fuel mt m m = true := by
  cases fuel with
  | zero => simp [msgIsEqualF]
  | succ n => simp [msgIsEqualF]

theorem dataEquals_refl (f : MiniTableField) (v : Val) : dataEquals f v v = true := by
  cases hk : f.kind <;> simp [dataEquals, hk]

theorem arrIsEqualC_refl (env : TableEnv) (cmp : MiniTable → Msg → Msg → Bool)
    (f : MiniTableField) (h : Option UArr) : arrIsEqualC env cmp f h h = true := by
  simp [arrIsEqualC]

theorem mapIsEqualC_refl (env : TableEnv) (cmp : MiniTable → Msg → Msg → Bool)
    (f : MiniTableField) (h : Option UMap) : mapIsEqualC env cmp f h h = true := by
  simp [mapIsEqualC]

theorem mapValCmpC_refl {cmp : MiniTable → Msg → Msg → Bool}
    (hc : ∀ mt m, cmp mt m m = true) (env : TableEnv) (f2 : MiniTableField) (v : Val) :
    mapValCmpC env cmp f2 v v = true := by
  unfold mapValCmpC
  by_cases hm : f2.isSubMessage
  · simp [hm, hc]
  · by_cases hs : f2.isStringView
    · simp [hm, hs]
    · simp [hm, hs, dataEquals_refl]

theorem cmpFieldValC_refl {cmp : MiniTable → Msg → Msg → Bool}
    (hc : ∀ mt m, cmp mt m m = true) (env : TableEnv) (f : MiniTableField) (v : Val) :
    cmpFieldValC env cmp f v v = true := by
  unfold cmpFieldValC
  by_cases ha : f.isArray
  · simp [ha, arrIsEqualC_refl]
  · by_cases hmp : f.isMap
    · simp [ha, hmp, mapIsEqualC_refl]
    · by_cases hm : f.isSubMessage
      · simp [ha, hmp, hm, hc]
      · simp [ha, hmp, hm, dataEquals_refl]

theorem zip_self_all {α : Type} (l : List α) (step : α × α → Bool)
    (h : ∀ x ∈ l, step (x, x) = true) : (l.zip l).all step = true := by
  induction l with
  | nil => rfl
  | cons a t ih =>
    rw [List.zip_cons_cons, List.all_cons, h a (by simp),
      ih fun x hx => h x (by simp [hx])]
    rfl

/-! ### General lemmas on the loop combinators -/

theorem all_false_of_mem {α : Type} {l : List α} {p : α → Bool} {x : α}
    (hx : x ∈ l) (hp : p x = false) : l.all p = false := by
  cases h : l.all p with
  | false => rfl
  | true => exact absurd (List.all_eq_true.mp h x hx) (by simp [hp])

theorem all_congr_mem {α : Type} {l : List α} {p q : α → Bool}
    (h : ∀ x ∈ l, p x = q x) : l.all p = l.all q := by
  induction l with
  | nil => rfl
  | cons a t ih =>
    simp only [List.all_cons, h a (by simp)]
    rw [ih fun x hx => h x (by simp [hx])]

theorem assocFind_mem {α β : Type} {p : α → α → Bool}
    (hp : ∀ a b, p a b = true ↔ a = b) {l : List (α × β)} {k : α} {v : β}
    (h : assocFindB p l k = some v) : (k, v) ∈ l := by
  induction l with
  | nil => simp [assocFindB] at h
  | cons a t ih =>
    obtain ⟨k1, v1⟩ := a
    rw [assocFindB] at h
    by_cases hk : p k1 k = true
    · rw [if_pos hk] at h
      cases h
      cases (hp k1 k).mp hk
      exact List.mem_cons_self _ _
    · rw [if_neg hk] at h
      exact List.mem_cons_of_mem _ (ih h)

theorem assocFind_of_mem {α β : Type} {p : α → α → Bool}
    (hp : ∀ a b, p a b = true ↔ a = b) {l : List (α × β)} {k : α} {v : β}
    (h : (k, v) ∈ l) : ∃ w, assocFindB p l k = some w := by
  induction l with
  | nil => simp at h
  | cons a t ih =>
    obtain ⟨k1, v1⟩ := a
    by_cases hk : p k1 k = true
    · exact ⟨v1, by simp [assocFindB, hk]⟩
    · rcases List.mem_cons.mp h with heq | ht
      · exact absurd ((hp k1 k).mpr (congrArg Prod.fst heq).symm) hk
      · simpa [assocFindB, hk] using ih ht

theorem assocFind_nodup_eq {α β : Type} {p : α → α → Bool}
    (hp : ∀ a b, p a b = true ↔ a = b) {l : List (α × β)} {k : α} {v : β}
    (hn : (l.map Prod.fst).Nodup) (h : (k, v) ∈ l) : assocFindB p l k = some v := by
  induction l with
  | nil => simp at h
  | cons a t ih =>
    obtain ⟨k1, v1⟩ := a
    rw [List.map_cons, List.nodup_cons] at hn
    rcases List.mem_cons.mp h with heq | ht
    · obtain ⟨hk, hv⟩ := Prod.mk.injEq .. ▸ heq.symm
      subst hk
      simp [assocFindB, hv, (hp k1 k1).mpr rfl]
    · by_cases hk : p k1 k = true
      · cases (hp k1 k).mp hk
        exact absurd (List.mem_map.mpr ⟨(_, v), ht, rfl⟩) hn.1
      · simpa [assocFindB, hk] using ih hn.2 ht

/-- Core of map/extension symmetry: if every entry of `e1` finds a
`P`-related partner in `e2` by key lookup, the keys are duplicate-free
on both sides and the entry counts match, then every entry of `e2`
finds a `Q`-related partner in `e1`, where `Q` reverses `P`
pointwise. -/
theorem assoc_all_transfer {α β : Type} {p : α → α → Bool}
    (hp : ∀ a b, p a b = true ↔ a = b) {e1 e2 : List (α × β)}
    {P Q : α → β → β → Bool}
    (hn1 : (e1.map Prod.fst).Nodup) (hn2 : (e2.map Prod.fst).Nodup)
    (hlen : e1.length = e2.length)
    (hPQ : ∀ k v1 v2, (k, v1) ∈ e1 → (k, v2) ∈ e2 → P k v1 v2 = true → Q k v2 v1 = true)
    (hall : ∀ q ∈ e1, ∃ v2, assocFindB p e2 q.1 = some v2 ∧ P q.1 q.2 v2 = true) :
    ∀ q ∈ e2, ∃ v1, assocFindB p e1 q.1 = some v1 ∧ Q q.1 q.2 v1 = true := by
  letI : DecidableEq α := fun a b => decidable_of_iff (p a b = true) (hp a b)
  have hsub : (e1.map Prod.fst).toFinset ⊆ (e2.map Prod.fst).toFinset := by
    intro k hk
    rw [List.mem_toFinset, List.mem_map] at hk
    obtain ⟨⟨k0, v1⟩, hmem, hfst⟩ := hk
    cases hfst
    obtain ⟨v2, hfind, _⟩ := hall _ hmem
    rw [List.mem_toFinset, List.mem_map]
    exact ⟨(k0, v2), assocFind_mem hp hfind, rfl⟩
  have hcard : (e2.map Prod.fst).toFinset.card ≤ (e1.map Prod.fst).toFinset.card := by
    rw [List.toFinset_card_of_nodup hn1, List.toFinset_card_of_nodup hn2]
    simp [hlen]
  have hfeq := Finset.eq_of_subset_of_card_le hsub hcard
  rintro ⟨k, v2⟩ hmem2
  have hk1 : k ∈ e1.map Prod.fst := by
    have hk2 : k ∈ (e2.map Prod.fst).toFinset :=
      List.mem_toFinset.mpr (List.mem_map.mpr ⟨(k, v2), hmem2, rfl⟩)
    rw [← hfeq, List.mem_toFinset] at hk2
    exact hk2
  obtain ⟨⟨k0, v1⟩, hmem1, hfst⟩ := List.mem_map.mp hk1
  cases hfst
  obtain ⟨v2x, hfind2, hP⟩ := hall _ hmem1
  have hveq : v2x = v2 :=
    Option.some.inj (hfind2.symm.trans (assocFind_nodup_eq hp hn2 hmem2))
  exact ⟨v1, assocFind_nodup_eq hp hn1 hmem1, hPQ k0 v1 v2 hmem1 hmem2 (hveq ▸ hP)⟩

/-! ### Base-field iterator lemmas -/

theorem fieldYields_defaultSlot (f : MiniTableField) :
    fieldYields f defaultSlot.1 defaultSlot.2 = false := by
  cases hp : f.hasPresence <;> simp [fieldYields, defaultSlot, hp, Val.isZeroData]

theorem nextBaseFieldAux_some_ge {msg : Msg} {fs : List MiniTableField} {j i : Nat}
    {f : MiniTableField} {v : Val}
    (h : nextBaseFieldAux msg j fs = some (i, f, v)) : j ≤ i := by
  induction fs generalizing j with
  | nil => simp [nextBaseFieldAux] at h
  | cons f0 rest ih =>
    rw [nextBaseFieldAux] at h
    by_cases hy : fieldYields f0 (msg.fieldData j).1 (msg.fieldData j).2
    · rw [if_pos hy] at h
      simp only [Option.some.injEq, Prod.mk.injEq] at h
      omega
    · rw [if_neg hy] at h
      exact Nat.le_of_succ_le (ih h)

theorem baseSeqAux_head (msg : Msg) (fs : List MiniTableField) (j : Nat) :
    nextBaseFieldAux msg j fs = (baseSeqAux msg j fs).head? := by
  induction fs generalizing j with
  | nil => rfl
  | cons f0 rest ih =>
    by_cases hy : fieldYields f0 (msg.fieldData j).1 (msg.fieldData j).2
    · simp [nextBaseFieldAux, baseSeqAux, if_pos hy]
    · simp only [nextBaseFieldAux, baseSeqAux, if_neg hy]
      exact ih (j + 1)

/-- What membership in the yielded base-field sequence means: the field
is the descriptor at the yielded index, the value is the stored value,
and the presence filter accepted the slot. -/
theorem baseSeqAux_mem {msg : Msg} {fs : List MiniTableField} {j : Nat}
    {t : Nat × MiniTableField × Val} (h : t ∈ baseSeqAux msg j fs) :
    ∃ k, fs.get? k = some t.2.1 ∧ t.1 = j + k ∧
      (msg.fieldData t.1).2 = t.2.2 ∧
      fieldYields t.2.1 (msg.fieldData t.1).1 t.2.2 = true := by
  induction fs generalizing j with
  | nil => simp [baseSeqAux] at h
  | cons f0 rest ih =>
    by_cases hy : fieldYields f0 (msg.fieldData j).1 (msg.fieldData j).2
    · rw [baseSeqAux, if_pos hy] at h
      rcases List.mem_cons.mp h with heq | ht
      · subst heq
        exact ⟨0, rfl, by omega, rfl, hy⟩
      · obtain ⟨k, hk, hj, hv, hy2⟩ := ih ht
        exact ⟨k + 1, by simpa using hk, by omega, hv, hy2⟩
    · rw [baseSeqAux, if_neg hy] at h
      obtain ⟨k, hk, hj, hv, hy2⟩ := ih h
      exact ⟨k + 1, by simpa using hk, by omega, hv, hy2⟩

theorem baseSeq_mem {mt : MiniTable} {msg : Msg} {t : Nat × MiniTableField × Val}
    (h : t ∈ baseSeq mt msg) :
    mt.fields.get? t.1 = some t.2.1 ∧ (msg.fieldData t.1).2 = t.2.2 ∧
      fieldYields t.2.1 (msg.fieldData t.1).1 t.2.2 = true := by
  obtain ⟨k, hk, hj, hv, hy⟩ := baseSeqAux_mem h
  refine ⟨?_, hv, hy⟩
  rw [hj]
  simpa using hk

/-- A yielded slot is a stored slot: the yielded index is in range of
the message's slot list (the out-of-range default slot is never
yielded). -/
theorem baseSeq_mem_lt {mt : MiniTable} {msg : Msg} {t : Nat × MiniTableField × Val}
    (h : t ∈ baseSeq mt msg) : t.1 < msg.fieldSlots.length := by
  obtain ⟨_, _, hy⟩ := baseSeq_mem h
  by_contra hlt
  have hdef : msg.fieldData t.1 = defaultSlot := by
    unfold Msg.fieldData
    exact List.getD_eq_default _ _ (by omega)
  rw [hdef] at hy
  obtain ⟨_, hv, _⟩ := baseSeq_mem h
  rw [hdef] at hv
  rw [← hv] at hy
  rw [fieldYields_defaultSlot] at hy
  exact Bool.false_ne_true hy

/-- The base-field scan only reads the declared-field slots: extensions
and unknown data do not influence it. -/
theorem baseSeqAux_fields_only (flds : List (Bool × Val))
    (e1 e2 : List (ExtEntry × Val)) (u1 u2 : List Nat)
    (fs : List MiniTableField) (j : Nat) :
    baseSeqAux (Msg.mk flds e1 u1) j fs = baseSeqAux (Msg.mk flds e2 u2) j fs := by
  induction fs generalizing j with
  | nil => rfl
  | cons f0 rest ih =>
    have hfd : (Msg.mk flds e1 u1).fieldData j = (Msg.mk flds e2 u2).fieldData j := rfl
    simp only [baseSeqAux, hfd]
    by_cases hy : fieldYields f0 ((Msg.mk flds e2 u2).fieldData j).1
        ((Msg.mk flds e2 u2).fieldData j).2
    · rw [if_pos hy, if_pos hy, ih]
    · rw [if_neg hy, if_neg hy, ih]

theorem nextBaseFieldAux_fields_only (flds : List (Bool × Val))
    (e1 e2 : List (ExtEntry × Val)) (u1 u2 : List Nat)
    (fs : List MiniTableField) (j : Nat) :
    nextBaseFieldAux (Msg.mk flds e1 u1) j fs = nextBaseFieldAux (Msg.mk flds e2 u2) j fs := by
  rw [baseSeqAux_head, baseSeqAux_head, baseSeqAux_fields_only flds e1 e2 u1 u2]

/-- Starting the scan at an in-range index `i`, field `i` itself is
yielded exactly when the presence filter accepts its slot. -/
theorem nextBaseField_self_iff {mt : MiniTable} {msg : Msg} {i : Nat}
    {f : MiniTableField} {hb : Bool} {v : Val}
    (hf : mt.fields.get? i = some f) (hs : msg.fieldSlots.get? i = some (hb, v)) :
    (nextBaseField mt msg i = some (i, f, v)) ↔ fieldYields f hb v = true := by
  have hlt : i < mt.fields.length := by
    rcases List.get?_eq_some.mp hf with ⟨h, _⟩
    exact h
  have hdata : msg.fieldData i = (hb, v) := by
    unfold Msg.fieldData
    rw [List.getD_eq_getD_get?, hs]
    rfl
  have hdrop : mt.fields.drop i = f :: mt.fields.drop (i + 1) := by
    rw [List.drop_eq_getElem_cons hlt]
    congr 1
    have h1 : mt.fields[i]? = some f := by
      rw [← List.get?_eq_getElem?]
      exact hf
    rw [List.getElem?_eq_getElem hlt] at h1
    exact Option.some.inj h1
  constructor
  · intro h
    unfold nextBaseField at h
    rw [hdrop] at h
    by_cases hy : fieldYields f (msg.fieldData i).1 (msg.fieldData i).2
    · rw [hdata] at hy; exact hy
    · rw [nextBaseFieldAux, if_neg hy] at h
      have := nextBaseFieldAux_some_ge h
      omega
  · intro hy
    unfold nextBaseField
    rw [hdrop, nextBaseFieldAux, if_pos (by rw [hdata]; exact hy), hdata]

/-! ### Well-formedness projections -/

theorem wfMsgT_parts {env : TableEnv} {mt : MiniTable} {flds : List (Bool × Val)}
    {exts : List (ExtEntry × Val)} {u : List Nat}
    (h : wfMsgT env mt (Msg.mk flds exts u) = true) :
    flds.length = mt.fields.length ∧ wfSlots env mt.fields flds = true ∧
      (exts.map Prod.fst).Nodup ∧ wfExtsT env exts = true := by
  simp only [wfMsgT, Bool.and_eq_true, decide_eq_true_eq] at h
  exact ⟨h.1, h.2.1, h.2.2.1, h.2.2.2⟩

theorem wfSlots_get {env : TableEnv} :
    ∀ {fs : List MiniTableField} {slots : List (Bool × Val)} {i : Nat}
      {f : MiniTableField} {hb : Bool} {v : Val},
      wfSlots env fs slots = true → fs.get? i = some f →
      slots.get? i = some (hb, v) → wfSlot env f hb v = true := by
  intro fs
  induction fs with
  | nil =>
    intro slots i f hb v _ hf _
    simp at hf
  | cons f0 fsr ih =>
    intro slots i f hb v hw hf hs
    cases slots with
    | nil => simp at hs
    | cons s0 rest =>
      obtain ⟨hb0, v0⟩ := s0
      simp only [wfSlots, Bool.and_eq_true] at hw
      cases i with
      | zero =>
        rw [List.get?_cons_zero] at hf hs
        cases hf
        cases hs
        exact hw.1
      | succ i2 =>
        rw [List.get?_cons_succ] at hf hs
        exact ih hw.2 hf hs

theorem wfExtsT_all {env : TableEnv} :
    ∀ {l : List (ExtEntry × Val)}, wfExtsT env l = true →
      ∀ ev ∈ l, wfCmpVal env ev.1.fld ev.2 = true := by
  intro l
  induction l with
  | nil =>
    intro _ ev hev
    simp at hev
  | cons a t ih =>
    intro hw ev hev
    obtain ⟨e, v⟩ := a
    simp only [wfExtsT, Bool.and_eq_true] at hw
    rcases List.mem_cons.mp hev with heq | ht
    · subst heq; exact hw.1
    · exact ih hw.2 ev ht

theorem wfMapT_parts {env : TableEnv} {f : MiniTableField} {entries : List (Val × Val)}
    (h : wfMapT env f (UMap.mk entries) = true) :
    (entries.map Prod.fst).Nodup ∧
      wfMapVals env (mapValField env f) entries = true := by
  simp only [wfMapT, Bool.and_eq_true, decide_eq_true_eq] at h
  exact ⟨(nodupByB_iff valBeq_iff _).mp h.1, h.2⟩

theorem wfMapVals_all {env : TableEnv} {f2 : MiniTableField} :
    ∀ {l : List (Val × Val)}, wfMapVals env f2 l = true →
      ∀ p ∈ l, wfMapVal env f2 p.2 = true := by
  intro l
  induction l with
  | nil =>
    intro _ p hp
    simp at hp
  | cons a t ih =>
    intro hw p hp
    obtain ⟨k, v⟩ := a
    simp only [wfMapVals, Bool.and_eq_true] at hw
    rcases List.mem_cons.mp hp with heq | ht
    · subst heq; exact hw.1
    · exact ih hw.2 p ht

theorem wfMsgElems_all {env : TableEnv} {subT : MiniTable} :
    ∀ {l : List Val}, wfMsgElems env subT l = true →
      ∀ v ∈ l, ∃ m, v = Val.sub (some m) ∧ wfMsgT env subT m = true := by
  intro l
  induction l with
  | nil =>
    intro _ v hv
    simp at hv
  | cons a t ih =>
    intro hw v hv
    rw [wfMsgElems.eq_def] at hw
    simp only [Bool.and_eq_true] at hw
    rcases List.mem_cons.mp hv with heq | ht
    · subst heq
      cases v with
      | sub ho =>
        cases ho with
        | none => simp at hw
        | some m => exact ⟨m, rfl, hw.1⟩
      | scalar b => simp at hw
      | str s => simp at hw
      | arr ho => simp at hw
      | mp ho => simp at hw
    · exact ih hw.2 v ht

/-! ### Well-formedness shape lemmas -/

theorem wfSlot_array {env : TableEnv} {f : MiniTableField} {hb : Bool} {v : Val}
    (hm : f.mode = FieldMode.arrayField) (h : wfSlot env f hb v = true) :
    ∃ ho, v = Val.arr ho ∧ ∀ a, ho = some a → wfArrT env f a = true := by
  cases v with
  | arr ho =>
    refine ⟨ho, rfl, ?_⟩
    intro a ha
    subst ha
    simpa [wfSlot, hm] using h
  | scalar b => simp [wfSlot, hm] at h
  | str s => simp [wfSlot, hm] at h
  | mp ho => cases ho <;> simp [wfSlot, hm] at h
  | sub ho => cases ho <;> simp [wfSlot, hm] at h

theorem wfSlot_map {env : TableEnv} {f : MiniTableField} {hb : Bool} {v : Val}
    (hm : f.mode = FieldMode.mapField) (h : wfSlot env f hb v = true) :
    ∃ ho, v = Val.mp ho ∧ ∀ a, ho = some a → wfMapT env f a = true := by
  cases v with
  | mp ho =>
    refine ⟨ho, rfl, ?_⟩
    intro a ha
    subst ha
    simpa [wfSlot, hm] using h
  | scalar b => simp [wfSlot, hm] at h
  | str s => simp [wfSlot, hm] at h
  | arr ho => cases ho <;> simp [wfSlot, hm] at h
  | sub ho => cases ho <;> simp [wfSlot, hm] at h

theorem wfSlot_msg_yield {env : TableEnv} {f : MiniTableField} {hb : Bool} {v : Val}
    (hmode : f.mode = FieldMode.singularField) (hkind : f.kind = FieldKind.msgK)
    (hw : wfSlot env f hb v = true) (hy : fieldYields f hb v = true) :
    ∃ m, v = Val.sub (some m) ∧ wfMsgT env (resolveSub env f) m = true := by
  cases v with
  | sub ho =>
    cases ho with
    | some m =>
      refine ⟨m, rfl, ?_⟩
      simpa [wfSlot, hmode, hkind] using hw
    | none =>
      exfalso
      cases hp : f.hasPresence with
      | true =>
        have hhb : hb = true := by simpa [fieldYields, hp] using hy
        simp [wfSlot, hmode, hkind, hp, hhb] at hw
      | false =>
        have hyf : fieldYields f hb (Val.sub none) = false := by
          simp [fieldYields, hp, Val.isZeroData]
        rw [hyf] at hy
        exact Bool.false_ne_true hy
  | scalar b => simp [wfSlot, hmode, hkind] at hw
  | str s => simp [wfSlot, hmode, hkind] at hw
  | arr ho => cases ho <;> simp [wfSlot, hmode, hkind] at hw
  | mp ho => cases ho <;> simp [wfSlot, hmode, hkind] at hw

/-- A slot that the presence filter has yielded is a well-formed
operand for the per-field dispatch. -/
theorem wfSlot_yield_wfCmpVal {env : TableEnv} {f : MiniTableField} {hb : Bool} {v : Val}
    (hw : wfSlot env f hb v = true) (hy : fieldYields f hb v = true) :
    wfCmpVal env f v = true := by
  cases hmode : f.mode with
  | arrayField =>
    obtain ⟨ho, hv, hwa⟩ := wfSlot_array hmode hw
    subst hv
    cases ho with
    | none => simp [wfCmpVal, hmode]
    | some a => simpa [wfCmpVal, hmode] using hwa a rfl
  | mapField =>
    obtain ⟨ho, hv, hwa⟩ := wfSlot_map hmode hw
    subst hv
    cases ho with
    | none => simp [wfCmpVal, hmode]
    | some a => simpa [wfCmpVal, hmode] using hwa a rfl
  | singularField =>
    cases hkind : f.kind with
    | scalarK w =>
      cases v with
      | scalar b => simp [wfCmpVal, hmode, hkind]
      | str s => simp [wfSlot, hmode, hkind] at hw
      | arr ho => cases ho <;> simp [wfSlot, hmode, hkind] at hw
      | mp ho => cases ho <;> simp [wfSlot, hmode, hkind] at hw
      | sub ho => cases ho <;> simp [wfSlot, hmode, hkind] at hw
    | strK =>
      cases v with
      | str s => simp [wfCmpVal, hmode, hkind]
      | scalar b => simp [wfSlot, hmode, hkind] at hw
      | arr ho => cases ho <;> simp [wfSlot, hmode, hkind] at hw
      | mp ho => cases ho <;> simp [wfSlot, hmode, hkind] at hw
      | sub ho => cases ho <;> simp [wfSlot, hmode, hkind] at hw
    | msgK =>
      obtain ⟨m, hv, hm⟩ := wfSlot_msg_yield hmode hkind hw hy
      subst hv
      simpa [wfCmpVal, hmode, hkind] using hm

theorem wfArrT_scalar {env : TableEnv} {f : MiniTableField} {lg2 : Nat}
    {elems : List Val} {w : Nat} (hk : f.kind = FieldKind.scalarK w)
    (h : wfArrT env f (UArr.mk lg2 elems) = true) : 1 <<< lg2 = w := by
  simp only [wfArrT, hk, Bool.and_eq_true, decide_eq_true_eq] at h
  exact h.1

theorem wfArrT_msg {env : TableEnv} {f : MiniTableField} {lg2 : Nat}
    {elems : List Val} (hk : f.kind = FieldKind.msgK)
    (h : wfArrT env f (UArr.mk lg2 elems) = true) :
    wfMsgElems env (resolveSub env f) elems = true := by
  simp only [wfArrT, hk] at h
  exact h

theorem wfCmpVal_array {env : TableEnv} {f : MiniTableField} {v : Val}
    (hm : f.mode = FieldMode.arrayField) (h : wfCmpVal env f v = true) :
    ∃ ho, v = Val.arr ho ∧ ∀ a, ho = some a → wfArrT env f a = true := by
  cases v with
  | arr ho =>
    refine ⟨ho, rfl, ?_⟩
    intro a ha
    subst ha
    simpa [wfCmpVal, hm] using h
  | scalar b => simp [wfCmpVal, hm] at h
  | str s => simp [wfCmpVal, hm] at h
  | mp ho => cases ho <;> simp [wfCmpVal, hm] at h
  | sub ho => cases ho <;> simp [wfCmpVal, hm] at h

theorem wfCmpVal_map {env : TableEnv} {f : MiniTableField} {v : Val}
    (hm : f.mode = FieldMode.mapField) (h : wfCmpVal env f v = true) :
    ∃ ho, v = Val.mp ho ∧ ∀ a, ho = some a → wfMapT env f a = true := by
  cases v with
  | mp ho =>
    refine ⟨ho, rfl, ?_⟩
    intro a ha
    subst ha
    simpa [wfCmpVal, hm] using h
  | scalar b => simp [wfCmpVal, hm] at h
  | str s => simp [wfCmpVal, hm] at h
  | arr ho => cases ho <;> simp [wfCmpVal, hm] at h
  | sub ho => cases ho <;> simp [wfCmpVal, hm] at h

theorem wfCmpVal_msg {env : TableEnv} {f : MiniTableField} {v : Val}
    (hm : f.mode = FieldMode.singularField) (hk : f.kind = FieldKind.msgK)
    (h : wfCmpVal env f v = true) :
    ∃ m, v = Val.sub (some m) ∧ wfMsgT env (resolveSub env f) m = true := by
  cases v with
  | sub ho =>
    cases ho with
    | some m =>
      refine ⟨m, rfl, ?_⟩
      simpa [wfCmpVal, hm, hk] using h
    | none => simp [wfCmpVal, hm, hk] at h
  | scalar b => simp [wfCmpVal, hm, hk] at h
  | str s => simp [wfCmpVal, hm, hk] at h
  | arr ho => cases ho <;> simp [wfCmpVal, hm, hk] at h
  | mp ho => cases ho <;> simp [wfCmpVal, hm, hk] at h

theorem wfMapVal_msg {env : TableEnv} {f2 : MiniTableField} {v : Val}
    (hk : f2.kind = FieldKind.msgK) (h : wfMapVal env f2 v = true) :
    ∃ m, v = Val.sub (some m) ∧ wfMsgT env (resolveSub env f2) m = true := by
  cases v with
  | sub ho =>
    cases ho with
    | some m =>
      refine ⟨m, rfl, ?_⟩
      simpa [wfMapVal, hk] using h
    | none => simp [wfMapVal, hk] at h
  | scalar b => simp [wfMapVal, hk] at h
  | str s => simp [wfMapVal, hk] at h
  | arr ho => cases ho <;> simp [wfMapVal, hk] at h
  | mp ho => cases ho <;> simp [wfMapVal, hk] at h

/-! ### Symmetry of the comparators -/

theorem dataEquals_comm (f : MiniTableField) (v1 v2 : Val) :
    dataEquals f v1 v2 = dataEquals f v2 v1 := by
  cases hk : f.kind <;> simp only [dataEquals, hk]
  · exact decide_eq_decide.mpr eq_comm
  · exact decide_eq_decide.mpr eq_comm
  · exact valBeq_comm v1 v2

theorem mapSizeO_eq (h : Option UMap) : mapSizeO h = (mapEntriesO h).length := by
  cases h <;> rfl

theorem lockstepAll_symm {p q : Val → Val → Bool} :
    ∀ {l1 l2 : List Val}, (∀ v1 ∈ l1, ∀ v2 ∈ l2, p v1 v2 = q v2 v1) →
      lockstepAll p l1 l2 = lockstepAll q l2 l1 := by
  intro l1
  induction l1 with
  | nil =>
    intro l2 _
    cases l2 <;> rfl
  | cons v1 t1 ih =>
    intro l2 h
    cases l2 with
    | nil => rfl
    | cons v2 t2 =>
      show (p v1 v2 && lockstepAll p t1 t2) = (q v2 v1 && lockstepAll q t2 t1)
      rw [h v1 (by simp) v2 (by simp),
        ih fun a ha b hb => h a (by simp [ha]) b (by simp [hb])]

theorem arrIsEqualC_symm {env : TableEnv} {cmp : MiniTable → Msg → Msg → Bool}
    (hsym : ∀ mt a b, wfMsgT env mt a = true → wfMsgT env mt b = true →
      cmp mt a b = cmp mt b a)
    {f : MiniTableField} {h1 h2 : Option UArr}
    (hw1 : ∀ a, h1 = some a → wfArrT env f a = true)
    (hw2 : ∀ a, h2 = some a → wfArrT env f a = true) :
    arrIsEqualC env cmp f h1 h2 = arrIsEqualC env cmp f h2 h1 := by
  by_cases heq : h1 = h2
  · subst heq; rfl
  · have heq2 : ¬ h2 = h1 := fun hh => heq hh.symm
    unfold arrIsEqualC
    rw [if_neg (show ¬obeq arrBeq h1 h2 = true from fun hh => heq ((obeq_arr_iff h1 h2).mp hh)),
      if_neg (show ¬obeq arrBeq h2 h1 = true from fun hh => heq2 ((obeq_arr_iff h2 h1).mp hh))]
    by_cases hsz : arrSizeO h1 = arrSizeO h2
    · rw [if_neg (show ¬arrSizeO h1 ≠ arrSizeO h2 from fun hh => hh hsz),
        if_neg (show ¬arrSizeO h2 ≠ arrSizeO h1 from fun hh => hh hsz.symm)]
      by_cases hsub : f.isSubMessage
      · rw [if_pos hsub, if_pos hsub]
        have hkind : f.kind = FieldKind.msgK := by
          simpa [MiniTableField.isSubMessage] using hsub
        have helems : ∀ (h : Option UArr), (∀ a, h = some a → wfArrT env f a = true) →
            ∀ v ∈ arrElemsO h,
              ∃ m, v = Val.sub (some m) ∧ wfMsgT env (resolveSub env f) m = true := by
          intro h hw v hv
          cases h with
          | none => simp [arrElemsO] at hv
          | some a =>
            obtain ⟨lg2, elems⟩ := a
            exact wfMsgElems_all (wfArrT_msg hkind (hw _ rfl)) v hv
        unfold arrMsgElemsEq
        refine lockstepAll_symm ?_
        intro v1 hv1 v2 hv2
        obtain ⟨ma, hva, hwa⟩ := helems h1 hw1 v1 hv1
        obtain ⟨mb, hvb, hwb⟩ := helems h2 hw2 v2 hv2
        subst hva
        subst hvb
        exact hsym _ _ _ hwa hwb
      · rw [if_neg hsub, if_neg hsub]
        by_cases hstr : f.isStringView
        · rw [if_pos hstr, if_pos hstr]
          unfold arrStrElemsEq
          refine lockstepAll_symm ?_
          intro v1 _ v2 _
          exact decide_eq_decide.mpr eq_comm
        · rw [if_neg hstr, if_neg hstr]
          obtain ⟨w, hkind⟩ : ∃ w, f.kind = FieldKind.scalarK w := by
            cases hk : f.kind with
            | scalarK w => exact ⟨w, rfl⟩
            | strK => exact absurd (by simp [MiniTableField.isStringView, hk]) hstr
            | msgK => exact absurd (by simp [MiniTableField.isSubMessage, hk]) hsub
          cases h1 with
          | none =>
            cases h2 with
            | none => exact absurd rfl heq
            | some a2 =>
              have hz : a2.elems.length = 0 := by
                simpa [arrSizeO] using hsz.symm
              rw [List.length_eq_zero] at hz
              simp [arrElemsO, hz, arrScalarElemsEq, lockstepAll]
          | some a1 =>
            cases h2 with
            | none =>
              have hz : a1.elems.length = 0 := by
                simpa [arrSizeO] using hsz
              rw [List.length_eq_zero] at hz
              simp [arrElemsO, hz, arrScalarElemsEq, lockstepAll]
            | some a2 =>
              obtain ⟨lg1, el1⟩ := a1
              obtain ⟨lg2, el2⟩ := a2
              have hww1 : 1 <<< lg1 = w := wfArrT_scalar hkind (hw1 _ rfl)
              have hww2 : 1 <<< lg2 = w := wfArrT_scalar hkind (hw2 _ rfl)
              have hwid : elemWidthO (some (UArr.mk lg1 el1)) =
                  elemWidthO (some (UArr.mk lg2 el2)) := by
                simp [elemWidthO, UArr.elemSizeLg2, hww1, hww2]
              rw [hwid]
              unfold arrScalarElemsEq
              refine lockstepAll_symm ?_
              intro v1 _ v2 _
              exact decide_eq_decide.mpr eq_comm
    · rw [if_pos (show arrSizeO h1 ≠ arrSizeO h2 from hsz),
        if_pos (show arrSizeO h2 ≠ arrSizeO h1 from fun hh => hsz hh.symm)]

theorem mapStep_iff {env : TableEnv} {cmp : MiniTable → Msg → Msg → Bool}
    {f : MiniTableField} {entries2 : List (Val × Val)} {e : Val × Val} :
    mapStep env cmp f entries2 e = true ↔
      ∃ v2, assocFindB valBeq entries2 e.1 = some v2 ∧
        mapValCmpC env cmp (mapValField env f) e.2 v2 = true := by
  cases hf : assocFindB valBeq entries2 e.1 <;> simp [mapStep, hf]

theorem extStep_iff {env : TableEnv} {cmp : MiniTable → Msg → Msg → Bool}
    {exts2 : List (ExtEntry × Val)} {ev : ExtEntry × Val} :
    extStep env cmp exts2 ev = true ↔
      ∃ v2, assocFindB extEntryBeq exts2 ev.1 = some v2 ∧
        cmpFieldValC env cmp ev.1.fld ev.2 v2 = true := by
  cases hf : assocFindB extEntryBeq exts2 ev.1 <;> simp [extStep, hf]

theorem mapValCmpC_symm {env : TableEnv} {cmp : MiniTable → Msg → Msg → Bool}
    (hsym : ∀ mt a b, wfMsgT env mt a = true → wfMsgT env mt b = true →
      cmp mt a b = cmp mt b a)
    {f2 : MiniTableField} {v1 v2 : Val}
    (hw1 : wfMapVal env f2 v1 = true) (hw2 : wfMapVal env f2 v2 = true) :
    mapValCmpC env cmp f2 v1 v2 = mapValCmpC env cmp f2 v2 v1 := by
  unfold mapValCmpC
  by_cases hsub : f2.isSubMessage
  · rw [if_pos hsub, if_pos hsub]
    have hk : f2.kind = FieldKind.msgK := by
      simpa [MiniTableField.isSubMessage] using hsub
    obtain ⟨m1, hv1, hm1⟩ := wfMapVal_msg hk hw1
    obtain ⟨m2, hv2, hm2⟩ := wfMapVal_msg hk hw2
    subst hv1
    subst hv2
    exact hsym _ m1 m2 hm1 hm2
  · rw [if_neg hsub, if_neg hsub]
    by_cases hstr : f2.isStringView
    · rw [if_pos hstr, if_pos hstr]
      exact decide_eq_decide.mpr eq_comm
    · rw [if_neg hstr, if_neg hstr]
      exact dataEquals_comm f2 v1 v2

theorem mapIsEqualC_symm {env : TableEnv} {cmp : MiniTable → Msg → Msg → Bool}
    (hsym : ∀ mt a b, wfMsgT env mt a = true → wfMsgT env mt b = true →
      cmp mt a b = cmp mt b a)
    {f : MiniTableField} {h1 h2 : Option UMap}
    (hw1 : ∀ a, h1 = some a → wfMapT env f a = true)
    (hw2 : ∀ a, h2 = some a → wfMapT env f a = true) :
    mapIsEqualC env cmp f h1 h2 = mapIsEqualC env cmp f h2 h1 := by
  have hparts : ∀ (h : Option UMap), (∀ a, h = some a → wfMapT env f a = true) →
      ((mapEntriesO h).map Prod.fst).Nodup ∧
        wfMapVals env (mapValField env f) (mapEntriesO h) = true := by
    intro h hw
    cases h with
    | none => exact ⟨by simp [mapEntriesO], by simp [mapEntriesO, wfMapVals]⟩
    | some a =>
      obtain ⟨entries⟩ := a
      exact wfMapT_parts (hw _ rfl)
  by_cases heq : h1 = h2
  · subst heq; rfl
  · have heq2 : ¬ h2 = h1 := fun hh => heq hh.symm
    unfold mapIsEqualC
    rw [if_neg (show ¬obeq mapBeq h1 h2 = true from fun hh => heq ((obeq_map_iff h1 h2).mp hh)),
      if_neg (show ¬obeq mapBeq h2 h1 = true from fun hh => heq2 ((obeq_map_iff h2 h1).mp hh))]
    by_cases hsz : mapSizeO h1 = mapSizeO h2
    · rw [if_neg (show ¬mapSizeO h1 ≠ mapSizeO h2 from fun hh => hh hsz),
        if_neg (show ¬mapSizeO h2 ≠ mapSizeO h1 from fun hh => hh hsz.symm)]
      obtain ⟨hn1, hv1⟩ := hparts h1 hw1
      obtain ⟨hn2, hv2⟩ := hparts h2 hw2
      have hlen : (mapEntriesO h1).length = (mapEntriesO h2).length := by
        rw [← mapSizeO_eq, ← mapSizeO_eq]
        exact hsz
      have hPQ : ∀ (k va vb : Val), (k, va) ∈ mapEntriesO h1 → (k, vb) ∈ mapEntriesO h2 →
          mapValCmpC env cmp (mapValField env f) va vb = true →
          mapValCmpC env cmp (mapValField env f) vb va = true := by
        intro k va vb hma hmb hp
        rw [← mapValCmpC_symm hsym (wfMapVals_all hv1 _ hma) (wfMapVals_all hv2 _ hmb)]
        exact hp
      have hQP : ∀ (k va vb : Val), (k, va) ∈ mapEntriesO h2 → (k, vb) ∈ mapEntriesO h1 →
          mapValCmpC env cmp (mapValField env f) va vb = true →
          mapValCmpC env cmp (mapValField env f) vb va = true := by
        intro k va vb hma hmb hp
        rw [← mapValCmpC_symm hsym (wfMapVals_all hv2 _ hma) (wfMapVals_all hv1 _ hmb)]
        exact hp
      rw [Bool.eq_iff_iff, List.all_eq_true, List.all_eq_true]
      constructor
      · intro hall p hp
        rw [mapStep_iff]
        exact assoc_all_transfer valBeq_iff hn1 hn2 hlen hPQ
          (fun q hq => mapStep_iff.mp (hall q hq)) p hp
      · intro hall p hp
        rw [mapStep_iff]
        exact assoc_all_transfer valBeq_iff hn2 hn1 hlen.symm hQP
          (fun q hq => mapStep_iff.mp (hall q hq)) p hp
    · rw [if_pos (show mapSizeO h1 ≠ mapSizeO h2 from hsz),
        if_pos (show mapSizeO h2 ≠ mapSizeO h1 from fun hh => hsz hh.symm)]

theorem cmpFieldValC_symm {env : TableEnv} {cmp : MiniTable → Msg → Msg → Bool}
    (hsym : ∀ mt a b, wfMsgT env mt a = true → wfMsgT env mt b = true →
      cmp mt a b = cmp mt b a)
    {f : MiniTableField} {v1 v2 : Val}
    (hw1 : wfCmpVal env f v1 = true) (hw2 : wfCmpVal env f v2 = true) :
    cmpFieldValC env cmp f v1 v2 = cmpFieldValC env cmp f v2 v1 := by
  unfold cmpFieldValC
  cases hmode : f.mode with
  | arrayField =>
    have ha : f.isArray = true := by simp [MiniTableField.isArray, hmode]
    rw [if_pos ha, if_pos ha]
    obtain ⟨ho1, hva, hwa⟩ := wfCmpVal_array hmode hw1
    obtain ⟨ho2, hvb, hwb⟩ := wfCmpVal_array hmode hw2
    subst hva
    subst hvb
    exact arrIsEqualC_symm hsym hwa hwb
  | mapField =>
    have ha : ¬(f.isArray = true) := by simp [MiniTableField.isArray, hmode]
    have hm : f.isMap = true := by simp [MiniTableField.isMap, hmode]
    rw [if_neg ha, if_neg ha, if_pos hm, if_pos hm]
    obtain ⟨ho1, hva, hwa⟩ := wfCmpVal_map hmode hw1
    obtain ⟨ho2, hvb, hwb⟩ := wfCmpVal_map hmode hw2
    subst hva
    subst hvb
    exact mapIsEqualC_symm hsym hwa hwb
  | singularField =>
    have ha : ¬(f.isArray = true) := by simp [MiniTableField.isArray, hmode]
    have hm : ¬(f.isMap = true) := by simp [MiniTableField.isMap, hmode]
    rw [if_neg ha, if_neg ha, if_neg hm, if_neg hm]
    by_cases hs : f.isSubMessage
    · rw [if_pos hs, if_pos hs]
      have hk : f.kind = FieldKind.msgK := by
        simpa [MiniTableField.isSubMessage] using hs
      obtain ⟨m1, hva, hma⟩ := wfCmpVal_msg hmode hk hw1
      obtain ⟨m2, hvb, hmb⟩ := wfCmpVal_msg hmode hk hw2
      subst hva
      subst hvb
      exact hsym _ m1 m2 hma hmb
    · rw [if_neg hs, if_neg hs]
      exact dataEquals_comm f v1 v2

theorem extsAreEqualC_symm {env : TableEnv} {cmp : MiniTable → Msg → Msg → Bool}
    (hsym : ∀ mt a b, wfMsgT env mt a = true → wfMsgT env mt b = true →
      cmp mt a b = cmp mt b a)
    {m1 m2 : Msg}
    (hn1 : (m1.exts.map Prod.fst).Nodup) (hn2 : (m2.exts.map Prod.fst).Nodup)
    (hwe1 : wfExtsT env m1.exts = true) (hwe2 : wfExtsT env m2.exts = true) :
    extsAreEqualC env cmp m1 m2 = extsAreEqualC env cmp m2 m1 := by
  unfold extsAreEqualC
  by_cases hc : m1.extensionCount = m2.extensionCount
  · rw [if_neg (show ¬m1.extensionCount ≠ m2.extensionCount from fun hh => hh hc),
      if_neg (show ¬m2.extensionCount ≠ m1.extensionCount from fun hh => hh hc.symm)]
    have hlen : m1.exts.length = m2.exts.length := hc
    have hPQ : ∀ (k : ExtEntry) (va vb : Val), (k, va) ∈ m1.exts → (k, vb) ∈ m2.exts →
        cmpFieldValC env cmp k.fld va vb = true →
        cmpFieldValC env cmp k.fld vb va = true := by
      intro k va vb hma hmb hp
      rw [← cmpFieldValC_symm hsym (wfExtsT_all hwe1 (k, va) hma)
        (wfExtsT_all hwe2 (k, vb) hmb)]
      exact hp
    have hQP : ∀ (k : ExtEntry) (va vb : Val), (k, va) ∈ m2.exts → (k, vb) ∈ m1.exts →
        cmpFieldValC env cmp k.fld va vb = true →
        cmpFieldValC env cmp k.fld vb va = true := by
      intro k va vb hma hmb hp
      rw [← cmpFieldValC_symm hsym (wfExtsT_all hwe2 (k, va) hma)
        (wfExtsT_all hwe1 (k, vb) hmb)]
      exact hp
    rw [Bool.eq_iff_iff, List.all_eq_true, List.all_eq_true]
    constructor
    · intro hall p hp
      rw [extStep_iff]
      exact assoc_all_transfer extEntryBeq_iff hn1 hn2 hlen hPQ
        (fun q hq => extStep_iff.mp (hall q hq)) p hp
    · intro hall p hp
      rw [extStep_iff]
      exact assoc_all_transfer extEntryBeq_iff hn2 hn1 hlen.symm hQP
        (fun q hq => extStep_iff.mp (hall q hq)) p hp
  · rw [if_pos (show m1.extensionCount ≠ m2.extensionCount from hc),
      if_pos (show m2.extensionCount ≠ m1.extensionCount from fun hh => hc hh.symm)]

theorem wfMsgT_nodup_exts {env : TableEnv} {mt : MiniTable} {m : Msg}
    (h : wfMsgT env mt m = true) : (m.exts.map Prod.fst).Nodup := by
  obtain ⟨f, e, u⟩ := m
  exact (wfMsgT_parts h).2.2.1

theorem wfMsgT_wfExts {env : TableEnv} {mt : MiniTable} {m : Msg}
    (h : wfMsgT env mt m = true) : wfExtsT env m.exts = true := by
  obtain ⟨f, e, u⟩ := m
  exact (wfMsgT_parts h).2.2.2

/-- Every slot yielded by the base-field iterator of a well-formed
message is a well-formed dispatch operand for its field. -/
theorem baseSeq_wfCmpVal {env : TableEnv} {mt : MiniTable} {m : Msg}
    (hw : wfMsgT env mt m = true) {t : Nat × MiniTableField × Val}
    (ht : t ∈ baseSeq mt m) : wfCmpVal env t.2.1 t.2.2 = true := by
  obtain ⟨hget, hval, hy⟩ := baseSeq_mem ht
  have hlt := baseSeq_mem_lt ht
  obtain ⟨flds, exts, u⟩ := m
  obtain ⟨hlen, hslots, _, _⟩ := wfMsgT_parts hw
  have hflt : t.1 < flds.length := by simpa [Msg.fieldSlots] using hlt
  rcases hp : (Msg.mk flds exts u).fieldData t.1 with ⟨hb, v⟩
  rw [hp] at hval hy
  have hfd : (Msg.mk flds exts u).fieldData t.1 = flds[t.1] := by
    unfold Msg.fieldData
    exact List.getD_eq_getElem _ _ hflt
  have hsget : flds.get? t.1 = some (hb, v) := by
    rw [List.get?_eq_getElem?, List.getElem?_eq_getElem hflt, ← hfd, hp]
  have hslot := wfSlots_get hslots hget hsget
  have hval2 : v = t.2.2 := hval
  rw [hval2] at hslot
  exact wfSlot_yield_wfCmpVal hslot (by simpa using hy)

theorem baseFieldsAreEqualC_symm {env : TableEnv} {cmp : MiniTable → Msg → Msg → Bool}
    (hsym : ∀ mt a b, wfMsgT env mt a = true → wfMsgT env mt b = true →
      cmp mt a b = cmp mt b a)
    {mt : MiniTable} {m1 m2 : Msg}
    (hw1 : wfMsgT env mt m1 = true) (hw2 : wfMsgT env mt m2 = true) :
    baseFieldsAreEqualC env cmp mt m1 m2 = baseFieldsAreEqualC env cmp mt m2 m1 := by
  unfold baseFieldsAreEqualC
  by_cases hlen : (baseSeq mt m1).length = (baseSeq mt m2).length
  · rw [if_neg (show ¬(baseSeq mt m1).length ≠ (baseSeq mt m2).length from
        fun hh => hh hlen),
      if_neg (show ¬(baseSeq mt m2).length ≠ (baseSeq mt m1).length from
        fun hh => hh hlen.symm)]
    rw [show (baseSeq mt m2).zip (baseSeq mt m1) =
        ((baseSeq mt m1).zip (baseSeq mt m2)).map Prod.swap from
      (List.zip_swap _ _).symm]
    rw [List.all_map]
    refine all_congr_mem ?_
    intro t ht
    obtain ⟨ht1, ht2⟩ := List.of_mem_zip ht
    obtain ⟨t1, t2⟩ := t
    show (decide (t1.1 = t2.1) && cmpFieldValC env cmp t1.2.1 t1.2.2 t2.2.2) =
      (decide (t2.1 = t1.1) && cmpFieldValC env cmp t2.2.1 t2.2.2 t1.2.2)
    by_cases hi : t1.1 = t2.1
    · have hf : t1.2.1 = t2.2.1 := by
        have hg1 := (baseSeq_mem ht1).1
        have hg2 := (baseSeq_mem ht2).1
        rw [hi] at hg1
        exact Option.some.inj (hg1.symm.trans hg2)
      have hd1 : decide (t1.1 = t2.1) = true := decide_eq_true hi
      have hd2 : decide (t2.1 = t1.1) = true := decide_eq_true hi.symm
      rw [hd1, hd2, Bool.true_and, Bool.true_and, ← hf]
      have hwv2 := baseSeq_wfCmpVal hw2 ht2
      rw [← hf] at hwv2
      exact cmpFieldValC_symm hsym (baseSeq_wfCmpVal hw1 ht1) hwv2
    · have hd1 : decide (t1.1 = t2.1) = false := decide_eq_false hi
      have hd2 : decide (t2.1 = t1.1) = false := decide_eq_false fun hh => hi hh.symm
      rw [hd1, hd2, Bool.false_and, Bool.false_and]
  · rw [if_pos (show (baseSeq mt m1).length ≠ (baseSeq mt m2).length from hlen),
      if_pos (show (baseSeq mt m2).length ≠ (baseSeq mt m1).length from
        fun hh => hlen hh.symm)]

/-- Symmetry of `upb_Message_IsEqual` at every recursion bound: the
enumerate-and-look-up asymmetry of map and extension comparison is
cancelled by size checks plus duplicate-free keys, and everything else
is lock-step. -/
theorem msgIsEqualF_symm (uf : UnknownCmp) (env : TableEnv)
    (hufs : ∀ a b, uf a b = uf b a) :
    ∀ (fuel : Nat) (mt : MiniTable) (m1 m2 : Msg),
      wfMsgT env mt m1 = true → wfMsgT env mt m2 = true →
      msgIsEqualF uf env fuel mt m1 m2 = msgIsEqualF uf env fuel mt m2 m1 := by
  intro fuel
  induction fuel with
  | zero =>
    intro mt m1 m2 _ _
    simp only [msgIsEqualF]
    exact msgBeq_comm m1 m2
  | succ n ih =>
    intro mt m1 m2 hw1 hw2
    by_cases heq : m1 = m2
    · subst heq; rfl
    · have heq2 : ¬ m2 = m1 := fun hh => heq hh.symm
      simp only [msgIsEqualF]
      rw [if_neg (show ¬msgBeq m1 m2 = true from fun hh => heq ((msgBeq_iff m1 m2).mp hh)),
        if_neg (show ¬msgBeq m2 m1 = true from fun hh => heq2 ((msgBeq_iff m2 m1).mp hh))]
      rw [baseFieldsAreEqualC_symm ih hw1 hw2,
        extsAreEqualC_symm ih (wfMsgT_nodup_exts hw1) (wfMsgT_nodup_exts hw2)
          (wfMsgT_wfExts hw1) (wfMsgT_wfExts hw2),
        hufs m1.unknownData m2.unknownData]

/-- Positional characterization of the element loops: the lock-step
traversal succeeds iff the lengths agree and the element comparison
holds at every index. -/
theorem lockstepAll_iff {p : Val → Val → Bool} : ∀ {l1 l2 : List Val},
    lockstepAll p l1 l2 = true ↔
      (l1.length = l2.length ∧
        ∀ i < l1.length, p (l1.getD i (Val.scalar 0)) (l2.getD i (Val.scalar 0)) = true) := by
  intro l1
  induction l1 with
  | nil =>
    intro l2
    cases l2 with
    | nil => simp [lockstepAll]
    | cons v2 t2 => simp [lockstepAll]
  | cons v1 t1 ih =>
    intro l2
    cases l2 with
    | nil => simp [lockstepAll]
    | cons v2 t2 =>
      show (p v1 v2 && lockstepAll p t1 t2) = true ↔ _
      rw [Bool.and_eq_true, ih]
      constructor
      · rintro ⟨hp, hlen, hall⟩
        refine ⟨by simp [hlen], ?_⟩
        intro i hi
        cases i with
        | zero => simpa using hp
        | succ j =>
          rw [List.getD_cons_succ, List.getD_cons_succ]
          exact hall j (by simpa using hi)
      · rintro ⟨hlen, hall⟩
        refine ⟨by simpa using hall 0 (by simp), by simpa using hlen, ?_⟩
        intro j hj
        have := hall (j + 1) (by simpa using Nat.succ_lt_succ hj)
        rw [List.getD_cons_succ, List.getD_cons_succ] at this
        exact this

/-! ### Claims -/

/-- C5: scalar field values are compared by raw byte pattern at the
element's width, not numerically: `_upb_MiniTableField_DataEquals` is a
bit-pattern comparison at the field's byte width, any two distinct
64-bit patterns in an explicit-presence double field make the messages
unequal under `upb_Message_IsEqual`, and in particular two different
NaN bit patterns compare unequal and positive and negative zero
(differing sign bits) compare unequal. -/
theorem claim_C5 :
    (∀ (f : MiniTableField) (w : Nat) (v1 v2 : Val), f.kind = FieldKind.scalarK w →
      dataEquals f v1 v2 =
        decide (v1.scalarBits % 2 ^ (8 * w) = v2.scalarBits % 2 ^ (8 * w))) ∧
    (∀ (uf : UnknownCmp) (env : TableEnv) (b1 b2 : Nat),
      b1 < 2 ^ 64 → b2 < 2 ^ 64 → b1 ≠ b2 →
      upbMessageIsEqual uf env
        ⟨[⟨true, FieldMode.singularField, FieldKind.scalarK 8, none⟩]⟩
        (Msg.mk [(true, Val.scalar b1)] [] [])
        (Msg.mk [(true, Val.scalar b2)] [] []) = false) ∧
    (∀ (uf : UnknownCmp) (env : TableEnv),
      upbMessageIsEqual uf env
        ⟨[⟨true, FieldMode.singularField, FieldKind.scalarK 8, none⟩]⟩
        (Msg.mk [(true, Val.scalar 0x7FF8000000000000)] [] [])
        (Msg.mk [(true, Val.scalar 0x7FF8000000000001)] [] []) = false) ∧
    (∀ (uf : UnknownCmp) (env : TableEnv),
      upbMessageIsEqual uf env
        ⟨[⟨true, FieldMode.singularField, FieldKind.scalarK 8, none⟩]⟩
        (Msg.mk [(true, Val.scalar 0)] [] [])
        (Msg.mk [(true, Val.scalar 0x8000000000000000)] [] []) = false) := by
  have hgen : ∀ (uf : UnknownCmp) (env : TableEnv) (b1 b2 : Nat),
      b1 < 2 ^ 64 → b2 < 2 ^ 64 → b1 ≠ b2 →
      upbMessageIsEqual uf env
        ⟨[⟨true, FieldMode.singularField, FieldKind.scalarK 8, none⟩]⟩
        (Msg.mk [(true, Val.scalar b1)] [] [])
        (Msg.mk [(true, Val.scalar b2)] [] []) = false := by
    intro uf env b1 b2 hb1 hb2 hne
    have hne2 : (Msg.mk [(true, Val.scalar b1)] [] []) ≠
        (Msg.mk [(true, Val.scalar b2)] [] []) := by
      simp [hne]
    have hdec : decide (b1 % 2 ^ (8 * 8) = b2 % 2 ^ (8 * 8)) = false := by
      apply decide_eq_false
      intro hcon
      rw [Nat.mod_eq_of_lt hb1, Nat.mod_eq_of_lt hb2] at hcon
      exact hne hcon
    have hbase : ∀ (cmp : MiniTable → Msg → Msg → Bool),
        baseFieldsAreEqualC env cmp
          ⟨[⟨true, FieldMode.singularField, FieldKind.scalarK 8, none⟩]⟩
          (Msg.mk [(true, Val.scalar b1)] [] [])
          (Msg.mk [(true, Val.scalar b2)] [] []) = false := by
      intro cmp
      unfold baseFieldsAreEqualC
      rw [show baseSeq ⟨[⟨true, FieldMode.singularField, FieldKind.scalarK 8, none⟩]⟩
            (Msg.mk [(true, Val.scalar b1)] [] []) =
          [(0, ⟨true, FieldMode.singularField, FieldKind.scalarK 8, none⟩,
            Val.scalar b1)] from rfl,
        show baseSeq ⟨[⟨true, FieldMode.singularField, FieldKind.scalarK 8, none⟩]⟩
            (Msg.mk [(true, Val.scalar b2)] [] []) =
          [(0, ⟨true, FieldMode.singularField, FieldKind.scalarK 8, none⟩,
            Val.scalar b2)] from rfl]
      rw [if_neg (by simp)]
      rw [show ([(0, (⟨true, FieldMode.singularField, FieldKind.scalarK 8, none⟩ :
            MiniTableField), Val.scalar b1)].zip
          [(0, (⟨true, FieldMode.singularField, FieldKind.scalarK 8, none⟩ :
            MiniTableField), Val.scalar b2)]) =
        [((0, ⟨true, FieldMode.singularField, FieldKind.scalarK 8, none⟩, Val.scalar b1),
          (0, ⟨true, FieldMode.singularField, FieldKind.scalarK 8, none⟩,
            Val.scalar b2))] from rfl]
      rw [List.all_cons, List.all_nil, Bool.and_true]
      show (decide ((0 : Nat) = 0) &&
        cmpFieldValC env cmp ⟨true, FieldMode.singularField, FieldKind.scalarK 8, none⟩
          (Val.scalar b1) (Val.scalar b2)) = false
      rw [show (decide ((0 : Nat) = 0)) = true from rfl, Bool.true_and]
      unfold cmpFieldValC
      rw [if_neg (by decide), if_neg (by decide), if_neg (by decide)]
      exact hdec
    unfold upbMessageIsEqual
    simp only [msgIsEqualF]
    rw [if_neg (show ¬msgBeq (Msg.mk [(true, Val.scalar b1)] [] [])
        (Msg.mk [(true, Val.scalar b2)] [] []) = true from
      fun hh => hne2 ((msgBeq_iff _ _).mp hh)), hbase, Bool.false_and]
  refine ⟨?_, hgen, fun uf env => hgen uf env _ _ (by decide) (by decide) (by decide),
    fun uf env => hgen uf env _ _ (by decide) (by decide) (by decide)⟩
  intro f w v1 v2 hk
  simp [dataEquals, hk]

/-- C4: array equality short-circuits to true on identical handles,
returns unequal whenever the lengths differ, and otherwise compares
elements positionally index by index, so reordering the elements of an
otherwise-identical array field makes the containing messages compare
unequal. -/
theorem claim_C4 :
    (∀ (env : TableEnv) (cmp : MiniTable → Msg → Msg → Bool) (f : MiniTableField)
      (h : Option UArr), arrIsEqualC env cmp f h h = true) ∧
    (∀ (env : TableEnv) (cmp : MiniTable → Msg → Msg → Bool) (f : MiniTableField)
      (h1 h2 : Option UArr), arrSizeO h1 ≠ arrSizeO h2 →
      arrIsEqualC env cmp f h1 h2 = false) ∧
    (∀ (uf : UnknownCmp) (env : TableEnv) (fuel : Nat) (f : MiniTableField)
      (a1 a2 : UArr),
      arrIsEqualC env (fun mt x y => msgIsEqualF uf env fuel mt x y) f
          (some a1) (some a2) = true ↔
        (a1.elems.length = a2.elems.length ∧
          ∀ i < a1.elems.length,
            arrElemCmpC env (fun mt x y => msgIsEqualF uf env fuel mt x y)
              f a1 a2 i = true)) ∧
    (∀ (uf : UnknownCmp) (env : TableEnv),
      upbMessageIsEqual uf env ⟨[⟨false, FieldMode.arrayField, FieldKind.scalarK 4, none⟩]⟩
        (Msg.mk [(false, Val.arr (some (UArr.mk 2 [Val.scalar 1, Val.scalar 2])))] [] [])
        (Msg.mk [(false, Val.arr (some (UArr.mk 2 [Val.scalar 2, Val.scalar 1])))] [] [])
        = false) := by
  refine ⟨?_, ?_, ?_, ?_⟩
  · intro env cmp f h
    exact arrIsEqualC_refl env cmp f h
  · intro env cmp f h1 h2 hsz
    have hne : h1 ≠ h2 := fun hh => hsz (by rw [hh])
    unfold arrIsEqualC
    rw [if_neg (show ¬obeq arrBeq h1 h2 = true from
      fun hh => hne ((obeq_arr_iff h1 h2).mp hh)), if_pos hsz]
  · intro uf env fuel f a1 a2
    have hsome : arrSizeO (some a1) = a1.elems.length := rfl
    have helem : ∀ (i : Nat),
        arrElemCmpC env (fun mt x y => msgIsEqualF uf env fuel mt x y) f a1 a2 i =
          (if f.isSubMessage then
            (fun v1 v2 => msgIsEqualF uf env fuel (resolveSub env f) v1.msgVal v2.msgVal)
          else if f.isStringView then
            (fun v1 v2 => decide (v1.strBytes = v2.strBytes))
          else
            (fun v1 v2 => decide (v1.scalarBits % 2 ^ (8 * (1 <<< a1.elemSizeLg2)) =
              v2.scalarBits % 2 ^ (8 * (1 <<< a1.elemSizeLg2)))))
          (a1.elems.getD i (Val.scalar 0)) (a2.elems.getD i (Val.scalar 0)) := by
      intro i
      unfold arrElemCmpC arrGet
      by_cases hsub : f.isSubMessage
      · rw [if_pos hsub, if_pos hsub]
      · rw [if_neg hsub, if_neg hsub]
        by_cases hstr : f.isStringView
        · rw [if_pos hstr, if_pos hstr]
        · rw [if_neg hstr, if_neg hstr]
    by_cases heq : a1 = a2
    · subst heq
      constructor
      · intro _
        refine ⟨rfl, ?_⟩
        intro i _
        rw [helem]
        by_cases hsub : f.isSubMessage
        · simp only [if_pos hsub]
          exact msgIsEqualF_refl uf env fuel _ _
        · by_cases hstr : f.isStringView
          · simp only [if_neg hsub, if_pos hstr]
            simp
          · simp only [if_neg hsub, if_neg hstr]
            simp
      · intro _
        exact arrIsEqualC_refl env _ f (some a1)
    · have hne : (some a1 : Option UArr) ≠ some a2 := by simp [heq]
      unfold arrIsEqualC
      rw [if_neg (show ¬obeq arrBeq (some a1) (some a2) = true from
        fun hh => hne ((obeq_arr_iff (some a1) (some a2)).mp hh))]
      by_cases hsz : a1.elems.length = a2.elems.length
      · rw [if_neg (show ¬arrSizeO (some a1) ≠ arrSizeO (some a2) from
          fun hh => hh hsz)]
        by_cases hsub : f.isSubMessage
        · rw [if_pos hsub]
          unfold arrMsgElemsEq
          rw [lockstepAll_iff]
          constructor
          · rintro ⟨hl, hall⟩
            refine ⟨hl, ?_⟩
            intro i hi
            rw [helem, if_pos hsub]
            exact hall i hi
          · rintro ⟨hl, hall⟩
            refine ⟨hl, ?_⟩
            intro i hi
            have := hall i hi
            rw [helem, if_pos hsub] at this
            exact this
        · rw [if_neg hsub]
          by_cases hstr : f.isStringView
          · rw [if_pos hstr]
            unfold arrStrElemsEq
            rw [lockstepAll_iff]
            constructor
            · rintro ⟨hl, hall⟩
              refine ⟨hl, ?_⟩
              intro i hi
              rw [helem, if_neg hsub, if_pos hstr]
              exact hall i hi
            · rintro ⟨hl, hall⟩
              refine ⟨hl, ?_⟩
              intro i hi
              have := hall i hi
              rw [helem, if_neg hsub, if_pos hstr] at this
              exact this
          · rw [if_neg hstr]
            unfold arrScalarElemsEq
            rw [lockstepAll_iff]
            have hwid : elemWidthO (some a1) = 1 <<< a1.elemSizeLg2 := rfl
            rw [hwid]
            constructor
            · rintro ⟨hl, hall⟩
              refine ⟨hl, ?_⟩
              intro i hi
              rw [helem, if_neg hsub, if_neg hstr]
              exact hall i hi
            · rintro ⟨hl, hall⟩
              refine ⟨hl, ?_⟩
              intro i hi
              have := hall i hi
              rw [helem, if_neg hsub, if_neg hstr] at this
              exact this
      · rw [if_pos (show arrSizeO (some a1) ≠ arrSizeO (some a2) from hsz)]
        constructor
        · intro h
          exact absurd h (by simp)
        · rintro ⟨hl, _⟩
          exact absurd hl hsz
  · intro uf env
    simp only [upbMessageIsEqual, msgIsEqualF]
    rw [if_neg (by decide)]
    rfl

/-- C8: for every message `m` and descriptor, `upb_Message_IsEqual(m, m, d)`
and `upb_Message_IsExactlyEqual(m, m, d)` both return true, via the
identity short-circuit on the two message arguments. -/
theorem claim_C8 (uf : UnknownCmp) (env : TableEnv) (mt : MiniTable) (m : Msg) :
    upbMessageIsEqual uf env mt m m = true ∧
      ∀ enc, upbMessageIsExactlyEqual enc mt m m = true := by
  constructor
  · exact msgIsEqualF_refl uf env _ mt m
  · intro enc
    simp [upbMessageIsExactlyEqual, isExactlyEqualT]

/-- C7: `upb_Message_IsEmpty` returns true iff the message has zero
extensions and the first call to the base-field iterator yields
nothing; unknown data is not considered, so a message with no known or
extension fields but non-empty unknown bytes is still reported empty. -/
theorem claim_C7 :
    (∀ (mt : MiniTable) (msg : Msg),
      isEmptyMsg mt msg = true ↔ (msg.exts = [] ∧ nextBaseField mt msg 0 = none)) ∧
    (∀ (mt : MiniTable) (flds : List (Bool × Val)) (exts : List (ExtEntry × Val))
      (u1 u2 : List Nat),
      isEmptyMsg mt (Msg.mk flds exts u1) = isEmptyMsg mt (Msg.mk flds exts u2)) ∧
    (∀ (mt : MiniTable) (flds : List (Bool × Val)) (u : List Nat),
      nextBaseField mt (Msg.mk flds [] u) 0 = none →
      isEmptyMsg mt (Msg.mk flds [] u) = true) := by
  refine ⟨?_, ?_, ?_⟩
  · intro mt msg
    unfold isEmptyMsg
    by_cases hc : msg.extensionCount ≠ 0
    · rw [if_pos hc]
      constructor
      · intro h
        exact absurd h (by simp)
      · rintro ⟨hext, _⟩
        exact absurd (show msg.extensionCount = 0 by
          simp [Msg.extensionCount, hext]) hc
    · rw [if_neg hc]
      have hext : msg.exts = [] := by
        rw [Decidable.not_not] at hc
        exact List.length_eq_zero.mp hc
      rw [Option.isNone_iff_eq_none]
      simp [hext]
  · intro mt flds exts u1 u2
    unfold isEmptyMsg
    have hnb : nextBaseField mt (Msg.mk flds exts u1) 0 =
        nextBaseField mt (Msg.mk flds exts u2) 0 := by
      unfold nextBaseField
      exact nextBaseFieldAux_fields_only flds exts exts u1 u2 _ 0
    simp only [Msg.extensionCount, Msg.exts, hnb]
  · intro mt flds u h
    unfold isEmptyMsg
    rw [if_neg (by simp [Msg.extensionCount, Msg.exts])]
    simp [h]

/-- C6: if either serialization fails during
`upb_Message_IsExactlyEqual` on distinct operands, the function returns
false rather than surfacing the failure, and the transient scratch
arena is released on every path (arenas freed always equals arenas
allocated) before the function returns. -/
theorem claim_C6 :
    (∀ (enc : MiniTable → Msg → Option (List Nat)) (mt : MiniTable) (m1 m2 : Msg),
      m1 ≠ m2 → (enc mt m1 = none ∨ enc mt m2 = none) →
      (isExactlyEqualT enc mt m1 m2).result = false ∧
        (isExactlyEqualT enc mt m1 m2).arenaAllocs = 1 ∧
        (isExactlyEqualT enc mt m1 m2).arenaFrees = 1) ∧
    (∀ (enc : MiniTable → Msg → Option (List Nat)) (mt : MiniTable) (m1 m2 : Msg),
      (isExactlyEqualT enc mt m1 m2).arenaFrees =
        (isExactlyEqualT enc mt m1 m2).arenaAllocs) := by
  constructor
  · intro enc mt m1 m2 hne henc
    unfold isExactlyEqualT
    rw [if_neg (show ¬msgBeq m1 m2 = true from fun hh => hne ((msgBeq_iff m1 m2).mp hh))]
    rcases henc with h | h
    · rw [h]
      exact ⟨rfl, rfl, rfl⟩
    · cases h1 : enc mt m1 with
      | none => exact ⟨rfl, rfl, rfl⟩
      | some d1 =>
        rw [h]
        exact ⟨rfl, rfl, rfl⟩
  · intro enc mt m1 m2
    unfold isExactlyEqualT
    by_cases h : m1 = m2
    · rw [if_pos ((msgBeq_iff m1 m2).mpr h)]
    · rw [if_neg (show ¬msgBeq m1 m2 = true from fun hh => h ((msgBeq_iff m1 m2).mp hh))]
      cases h1 : enc mt m1 <;> cases h2 : enc mt m2 <;> rfl

/-- C10 counterexample: with a null first handle, a non-null empty
second array and a scalar element kind, `_upb_Array_IsEqual` reaches
the element-width read `1U << _upb_Array_ElemSizeLg2(arr1)` and reads
through the null handle (the instrumented embedding reports the null
dereference), refuting the claim that a result is always produced
without reading through a null handle. -/
theorem claim_C10_cex :
    arrIsEqualR [] (fun _ _ _ => true)
      ⟨false, FieldMode.arrayField, FieldKind.scalarK 4, none⟩
      none (some (UArr.mk 2 [])) = .error () := rfl

/-- C10 (amended): array equality produces a result without reading
through a null handle, except when the first handle is null, the second
is a non-null array of size 0 and the element kind is scalar, in which
case the element width is read through the null first handle. -/
theorem claim_C10 (env : TableEnv) (cmp : MiniTable → Msg → Msg → Bool)
    (f : MiniTableField) (h1 h2 : Option UArr) :
    (arrIsEqualR env cmp f h1 h2).isOk = !nullWidthRead f h1 h2 := by
  cases h1 with
  | none =>
    cases h2 with
    | none => rfl
    | some a =>
      obtain ⟨lg2, elems⟩ := a
      cases elems with
      | nil =>
        unfold arrIsEqualR nullWidthRead
        rw [if_neg (by simp [obeq]), if_neg (by simp [arrSizeO, UArr.elems])]
        by_cases hsub : f.isSubMessage
        · simp [hsub, Except.isOk, Except.toBool]
        · by_cases hstr : f.isStringView
          · simp [hsub, hstr, Except.isOk, Except.toBool]
          · simp [hsub, hstr, Except.isOk, Except.toBool, UArr.elems]
      | cons v t =>
        unfold arrIsEqualR nullWidthRead
        rw [if_neg (by simp [obeq]),
          if_pos (show arrSizeO none ≠ arrSizeO (some (UArr.mk lg2 (v :: t))) by
            simp [arrSizeO, UArr.elems])]
        simp [Except.isOk, Except.toBool, UArr.elems]
  | some a1 =>
    have hnw : nullWidthRead f (some a1) h2 = false := rfl
    rw [hnw, Bool.not_false]
    unfold arrIsEqualR
    by_cases heq : (some a1 : Option UArr) = h2
    · rw [if_pos ((obeq_arr_iff (some a1) h2).mpr heq)]
      rfl
    · rw [if_neg (show ¬obeq arrBeq (some a1) h2 = true from
        fun hh => heq ((obeq_arr_iff (some a1) h2).mp hh))]
      by_cases hsz : arrSizeO (some a1) ≠ arrSizeO h2
      · rw [if_pos hsz]
        rfl
      · rw [if_neg hsz]
        by_cases hsub : f.isSubMessage
        · rw [if_pos hsub]
          rfl
        · rw [if_neg hsub]
          by_cases hstr : f.isStringView
          · rw [if_pos hstr]
            rfl
          · rw [if_neg hstr]
            rfl

/-- The lock-step base-field comparison succeeds on two messages with
the same field slots (it depends only on the slots when the recursive
comparator is reflexive). -/
theorem baseFieldsAreEqualC_congr_flds {env : TableEnv}
    {cmp : MiniTable → Msg → Msg → Bool} (hc : ∀ mt m, cmp mt m m = true)
    (mt : MiniTable) (flds : List (Bool × Val))
    (e1 e2 : List (ExtEntry × Val)) (u1 u2 : List Nat) :
    baseFieldsAreEqualC env cmp mt (Msg.mk flds e1 u1) (Msg.mk flds e2 u2) = true := by
  unfold baseFieldsAreEqualC
  have hseq : baseSeq mt (Msg.mk flds e1 u1) = baseSeq mt (Msg.mk flds e2 u2) := by
    unfold baseSeq
    exact baseSeqAux_fields_only flds e1 e2 u1 u2 _ 0
  rw [hseq, if_neg (by simp)]
  exact zip_self_all _ _ fun x hx => by simp [cmpFieldValC_refl hc]

/-- The extension comparison succeeds on two messages whose extension
lists are permutations of each other with duplicate-free descriptors
(when the recursive comparator is reflexive). -/
theorem extsAreEqualC_perm {env : TableEnv} {cmp : MiniTable → Msg → Msg → Bool}
    (hc : ∀ mt m, cmp mt m m = true) {e1 e2 : List (ExtEntry × Val)}
    (hperm : e1.Perm e2) (hn : (e1.map Prod.fst).Nodup)
    (flds1 flds2 : List (Bool × Val)) (u1 u2 : List Nat) :
    extsAreEqualC env cmp (Msg.mk flds1 e1 u1) (Msg.mk flds2 e2 u2) = true := by
  unfold extsAreEqualC
  have hcount : (Msg.mk flds1 e1 u1).extensionCount =
      (Msg.mk flds2 e2 u2).extensionCount := by
    simp only [Msg.extensionCount, Msg.exts]
    exact hperm.length_eq
  rw [if_neg (by simp [hcount])]
  rw [List.all_eq_true]
  intro ev hev
  have hn2 : (e2.map Prod.fst).Nodup := ((hperm.map Prod.fst).nodup_iff).mp hn
  have hmem2 : ev ∈ e2 := hperm.mem_iff.mp hev
  have hfind : assocFindB extEntryBeq e2 ev.1 = some ev.2 :=
    assocFind_nodup_eq extEntryBeq_iff hn2 hmem2
  simp only [Msg.exts] at hev ⊢
  simp only [extStep, hfind]
  exact cmpFieldValC_refl hc env ev.1.fld ev.2

/-- C1: the base-field iterator yields an explicit-presence field iff
its has-bit is set (regardless of value), an implicit-presence
singular field iff its raw value is non-zero, and an array or map
field iff its size is greater than 0; the scan inspects exactly the
slot's presence filter at each index; consequently a message with an
explicit-presence scalar field set to its zero value compares unequal
to the same message with the field unset, while with implicit presence
a zero value compares equal to an untouched field. -/
theorem claim_C1 :
    (∀ (f : MiniTableField) (hb : Bool) (v : Val), f.hasPresence = true →
      (fieldYields f hb v = true ↔ hb = true)) ∧
    (∀ (f : MiniTableField) (hb : Bool) (v : Val), f.hasPresence = false →
      f.isArray = false → f.isMap = false →
      (fieldYields f hb v = true ↔ v.isZeroData = false)) ∧
    (∀ (f : MiniTableField) (hb : Bool) (v : Val), f.hasPresence = false →
      f.isArray = true →
      (fieldYields f hb v = true ↔ 0 < arrSizeO v.arrayVal)) ∧
    (∀ (f : MiniTableField) (hb : Bool) (v : Val), f.hasPresence = false →
      f.isArray = false → f.isMap = true →
      (fieldYields f hb v = true ↔ 0 < mapSizeO v.mapVal)) ∧
    (∀ (mt : MiniTable) (msg : Msg) (i : Nat) (f : MiniTableField)
      (hb : Bool) (v : Val),
      mt.fields.get? i = some f → msg.fieldSlots.get? i = some (hb, v) →
      (nextBaseField mt msg i = some (i, f, v) ↔ fieldYields f hb v = true)) ∧
    (∀ (uf : UnknownCmp) (env : TableEnv),
      upbMessageIsEqual uf env
        ⟨[⟨true, FieldMode.singularField, FieldKind.scalarK 8, none⟩]⟩
        (Msg.mk [(true, Val.scalar 0)] [] [])
        (Msg.mk [(false, Val.scalar 0)] [] []) = false) ∧
    (∀ (uf : UnknownCmp) (env : TableEnv), uf [] [] = true →
      upbMessageIsEqual uf env
        ⟨[⟨false, FieldMode.singularField, FieldKind.scalarK 8, none⟩]⟩
        (Msg.mk [(true, Val.scalar 0)] [] [])
        (Msg.mk [(false, Val.scalar 0)] [] []) = true) := by
  refine ⟨?_, ?_, ?_, ?_, ?_, ?_, ?_⟩
  · intro f hb v hp
    simp [fieldYields, hp]
  · intro f hb v hp ha hm
    by_cases hz : v.isZeroData = true
    · simp [fieldYields, hp, hz]
    · simp [fieldYields, hp, ha, hm, hz]
  · intro f hb v hp ha
    by_cases hz : v.isZeroData = true
    · have hzero : arrSizeO v.arrayVal = 0 := by
        cases v <;> simp_all [Val.isZeroData, Val.arrayVal, arrSizeO]
      simp [fieldYields, hp, hz, hzero]
    · simp only [fieldYields, hp, Bool.false_eq_true, if_false, hz, ha, if_true]
      rw [decide_eq_true_eq]
      omega
  · intro f hb v hp ha hm
    by_cases hz : v.isZeroData = true
    · have hzero : mapSizeO v.mapVal = 0 := by
        cases v <;> simp_all [Val.isZeroData, Val.mapVal, mapSizeO]
      simp [fieldYields, hp, hz, hzero]
    · simp only [fieldYields, hp, Bool.false_eq_true, if_false, hz, ha, hm, if_true]
      rw [decide_eq_true_eq]
      omega
  · intro mt msg i f hb v hf hs
    exact nextBaseField_self_iff hf hs
  · intro uf env
    rfl
  · intro uf env huf
    exact (show upbMessageIsEqual uf env
      ⟨[⟨false, FieldMode.singularField, FieldKind.scalarK 8, none⟩]⟩
      (Msg.mk [(true, Val.scalar 0)] [] [])
      (Msg.mk [(false, Val.scalar 0)] [] []) = uf [] [] from rfl).trans huf

/-- C2: extensions compare equal iff the extension counts match and
every extension of the first message finds the extension of identical
descriptor identity in the second with a value equal under the
per-kind dispatch; the same set of (extension, value) pairs attached
in different orders compares equal under `upb_Message_IsEqual`, an
extension whose descriptor is absent from the second message makes the
comparison fail, and two concrete messages with equal-count but
different extension sets compare unequal. -/
theorem claim_C2 :
    (∀ (env : TableEnv) (cmp : MiniTable → Msg → Msg → Bool) (m1 m2 : Msg),
      extsAreEqualC env cmp m1 m2 = true ↔
        (m1.extensionCount = m2.extensionCount ∧
          ∀ ev ∈ m1.exts, ∃ v2, assocFindB extEntryBeq m2.exts ev.1 = some v2 ∧
            cmpFieldValC env cmp ev.1.fld ev.2 v2 = true)) ∧
    (∀ (uf : UnknownCmp) (env : TableEnv) (mt : MiniTable)
      (flds : List (Bool × Val)) (e1 e2 : List (ExtEntry × Val)) (u : List Nat),
      e1.Perm e2 → (e1.map Prod.fst).Nodup → uf u u = true →
      upbMessageIsEqual uf env mt (Msg.mk flds e1 u) (Msg.mk flds e2 u) = true) ∧
    (∀ (env : TableEnv) (cmp : MiniTable → Msg → Msg → Bool) (m1 m2 : Msg)
      (ev : ExtEntry × Val), ev ∈ m1.exts →
      assocFindB extEntryBeq m2.exts ev.1 = none →
      extsAreEqualC env cmp m1 m2 = false) ∧
    (∀ (uf : UnknownCmp) (env : TableEnv),
      upbMessageIsEqual uf env ⟨[]⟩
        (Msg.mk [] [(⟨1, defaultField⟩, Val.scalar 5)] [])
        (Msg.mk [] [(⟨2, defaultField⟩, Val.scalar 5)] []) = false) := by
  refine ⟨?_, ?_, ?_, ?_⟩
  · intro env cmp m1 m2
    unfold extsAreEqualC
    by_cases hcnt : m1.extensionCount ≠ m2.extensionCount
    · rw [if_pos hcnt]
      constructor
      · intro h
        exact absurd h (by simp)
      · rintro ⟨hcc, _⟩
        exact absurd hcc hcnt
    · rw [if_neg hcnt, List.all_eq_true]
      rw [Decidable.not_not] at hcnt
      constructor
      · intro h
        exact ⟨hcnt, fun ev hev => extStep_iff.mp (h ev hev)⟩
      · rintro ⟨_, h⟩
        intro ev hev
        exact extStep_iff.mpr (h ev hev)
  · intro uf env mt flds e1 e2 u hperm hn huf
    unfold upbMessageIsEqual
    simp only [msgIsEqualF]
    by_cases hbeq : msgBeq (Msg.mk flds e1 u) (Msg.mk flds e2 u) = true
    · rw [if_pos hbeq]
    · rw [if_neg hbeq,
        baseFieldsAreEqualC_congr_flds
          (fun mt2 m2 => msgIsEqualF_refl uf env _ mt2 m2) mt flds e1 e2 u u,
        extsAreEqualC_perm
          (fun mt2 m2 => msgIsEqualF_refl uf env _ mt2 m2) hperm hn flds flds u u]
      simpa [Msg.unknownData] using huf
  · intro env cmp m1 m2 ev hev hnone
    unfold extsAreEqualC
    by_cases hcnt : m1.extensionCount ≠ m2.extensionCount
    · rw [if_pos hcnt]
    · rw [if_neg hcnt]
      refine all_false_of_mem hev ?_
      simp only [extStep, hnone]
  · intro uf env
    rfl

/-- C3: map equality is order-independent: maps holding the same
key-to-value pairs in any order (with duplicate-free keys, under a
reflexive recursive comparator) compare equal, while differing sizes,
a key of the first map absent from the second, or a key mapping to a
value that compares unequal each make the comparison return false;
a concrete two-entry map compares equal to its reversal. -/
theorem claim_C3 :
    (∀ (env : TableEnv) (cmp : MiniTable → Msg → Msg → Bool) (f : MiniTableField)
      (e1 e2 : List (Val × Val)),
      (∀ mt m, cmp mt m m = true) → e1.Perm e2 → (e1.map Prod.fst).Nodup →
      mapIsEqualC env cmp f (some (UMap.mk e1)) (some (UMap.mk e2)) = true) ∧
    (∀ (env : TableEnv) (cmp : MiniTable → Msg → Msg → Bool) (f : MiniTableField)
      (h1 h2 : Option UMap), mapSizeO h1 ≠ mapSizeO h2 →
      mapIsEqualC env cmp f h1 h2 = false) ∧
    (∀ (env : TableEnv) (cmp : MiniTable → Msg → Msg → Bool) (f : MiniTableField)
      (m1 m2 : UMap) (q : Val × Val), q ∈ m1.entries →
      assocFindB valBeq m2.entries q.1 = none →
      mapIsEqualC env cmp f (some m1) (some m2) = false) ∧
    (∀ (env : TableEnv) (cmp : MiniTable → Msg → Msg → Bool) (f : MiniTableField)
      (m1 m2 : UMap) (q : Val × Val) (v2 : Val),
      (∀ mt m, cmp mt m m = true) → (m1.entries.map Prod.fst).Nodup →
      q ∈ m1.entries → assocFindB valBeq m2.entries q.1 = some v2 →
      mapValCmpC env cmp (mapValField env f) q.2 v2 = false →
      mapIsEqualC env cmp f (some m1) (some m2) = false) ∧
    (∀ (env : TableEnv) (f : MiniTableField),
      mapIsEqualC env (fun _ _ _ => true) f
        (some (UMap.mk [(Val.scalar 1, Val.scalar 10), (Val.scalar 2, Val.scalar 20)]))
        (some (UMap.mk [(Val.scalar 2, Val.scalar 20), (Val.scalar 1, Val.scalar 10)]))
        = true) := by
  have ha : ∀ (env : TableEnv) (cmp : MiniTable → Msg → Msg → Bool)
      (f : MiniTableField) (e1 e2 : List (Val × Val)),
      (∀ mt m, cmp mt m m = true) → e1.Perm e2 → (e1.map Prod.fst).Nodup →
      mapIsEqualC env cmp f (some (UMap.mk e1)) (some (UMap.mk e2)) = true := by
    intro env cmp f e1 e2 hc hperm hn
    unfold mapIsEqualC
    by_cases hbeq : obeq mapBeq (some (UMap.mk e1)) (some (UMap.mk e2)) = true
    · rw [if_pos hbeq]
    · rw [if_neg hbeq]
      have hsz : mapSizeO (some (UMap.mk e1)) = mapSizeO (some (UMap.mk e2)) := by
        simp only [mapSizeO, UMap.entries]
        exact hperm.length_eq
      rw [if_neg (show ¬mapSizeO (some (UMap.mk e1)) ≠ mapSizeO (some (UMap.mk e2))
        from fun hh => hh hsz)]
      rw [List.all_eq_true]
      intro q hq
      have hn2 : (e2.map Prod.fst).Nodup := ((hperm.map Prod.fst).nodup_iff).mp hn
      have hmem2 : q ∈ e2 := hperm.mem_iff.mp hq
      have hfind : assocFindB valBeq e2 q.1 = some q.2 :=
        assocFind_nodup_eq valBeq_iff hn2 hmem2
      simp only [mapEntriesO, UMap.entries] at hq ⊢
      simp only [mapStep, hfind]
      exact mapValCmpC_refl hc env (mapValField env f) q.2
  refine ⟨ha, ?_, ?_, ?_, ?_⟩
  · intro env cmp f h1 h2 hsz
    have hne : h1 ≠ h2 := fun hh => hsz (by rw [hh])
    unfold mapIsEqualC
    rw [if_neg (show ¬obeq mapBeq h1 h2 = true from
      fun hh => hne ((obeq_map_iff h1 h2).mp hh)), if_pos hsz]
  · intro env cmp f m1 m2 q hq hnone
    by_cases hbeq : obeq mapBeq (some m1) (some m2) = true
    · have hm12 : m1 = m2 := Option.some.inj ((obeq_map_iff _ _).mp hbeq)
      subst hm12
      obtain ⟨w, hw⟩ := assocFind_of_mem valBeq_iff
        (show (q.1, q.2) ∈ m1.entries from hq)
      rw [hw] at hnone
      exact absurd hnone (by simp)
    · unfold mapIsEqualC
      rw [if_neg hbeq]
      by_cases hsz : mapSizeO (some m1) ≠ mapSizeO (some m2)
      · rw [if_pos hsz]
      · rw [if_neg hsz]
        refine all_false_of_mem (show q ∈ mapEntriesO (some m1) from hq) ?_
        simp only [mapStep, mapEntriesO, hnone]
  · intro env cmp f m1 m2 q v2 hc hn1 hq hfind hbad
    by_cases hbeq : obeq mapBeq (some m1) (some m2) = true
    · have hm12 : m1 = m2 := Option.some.inj ((obeq_map_iff _ _).mp hbeq)
      subst hm12
      have hself : assocFindB valBeq m1.entries q.1 = some q.2 :=
        assocFind_nodup_eq valBeq_iff hn1 (show (q.1, q.2) ∈ m1.entries from hq)
      rw [hself] at hfind
      cases Option.some.inj hfind
      exact absurd (mapValCmpC_refl hc env (mapValField env f) q.2) (by simp [hbad])
    · unfold mapIsEqualC
      rw [if_neg hbeq]
      by_cases hsz : mapSizeO (some m1) ≠ mapSizeO (some m2)
      · rw [if_pos hsz]
      · rw [if_neg hsz]
        refine all_false_of_mem (show q ∈ mapEntriesO (some m1) from hq) ?_
        simp only [mapStep, mapEntriesO, hfind, hbad]
  · intro env f
    refine ha env _ f _ _ (fun _ _ => rfl) (List.Perm.swap _ _ _) ?_
    simp

/-- C9: `upb_Message_IsEqual` is symmetric in its two message operands
on well-formed messages whenever the external unknown-data comparator
is, and `upb_Message_IsExactlyEqual` is symmetric unconditionally; a
concrete asymmetric-looking pair compares the same in both orders. -/
theorem claim_C9 :
    (∀ (uf : UnknownCmp) (env : TableEnv) (mt : MiniTable) (m1 m2 : Msg),
      (∀ a b, uf a b = uf b a) →
      wfMsgT env mt m1 = true → wfMsgT env mt m2 = true →
      upbMessageIsEqual uf env mt m1 m2 = upbMessageIsEqual uf env mt m2 m1) ∧
    (∀ (enc : MiniTable → Msg → Option (List Nat)) (mt : MiniTable) (m1 m2 : Msg),
      upbMessageIsExactlyEqual enc mt m1 m2 = upbMessageIsExactlyEqual enc mt m2 m1) ∧
    (upbMessageIsEqual (fun a b => decide (a = b)) []
        ⟨[⟨true, FieldMode.singularField, FieldKind.scalarK 8, none⟩]⟩
        (Msg.mk [(true, Val.scalar 1)] [] []) (Msg.mk [(false, Val.scalar 0)] [] []) =
      upbMessageIsEqual (fun a b => decide (a = b)) []
        ⟨[⟨true, FieldMode.singularField, FieldKind.scalarK 8, none⟩]⟩
        (Msg.mk [(false, Val.scalar 0)] [] []) (Msg.mk [(true, Val.scalar 1)] [] [])) := by
  have h1 : ∀ (uf : UnknownCmp) (env : TableEnv) (mt : MiniTable) (m1 m2 : Msg),
      (∀ a b, uf a b = uf b a) →
      wfMsgT env mt m1 = true → wfMsgT env mt m2 = true →
      upbMessageIsEqual uf env mt m1 m2 = upbMessageIsEqual uf env mt m2 m1 := by
    intro uf env mt m1 m2 hufs hw1 hw2
    unfold upbMessageIsEqual
    rw [show msgWeight m2 + msgWeight m1 + 1 = msgWeight m1 + msgWeight m2 + 1 by omega]
    exact msgIsEqualF_symm uf env hufs _ mt m1 m2 hw1 hw2
  refine ⟨h1, ?_, ?_⟩
  · intro enc mt m1 m2
    unfold upbMessageIsExactlyEqual isExactlyEqualT
    by_cases h : m1 = m2
    · subst h
      rfl
    · have h2 : ¬ m2 = m1 := fun hh => h hh.symm
      rw [if_neg (show ¬msgBeq m1 m2 = true from fun hh => h ((msgBeq_iff m1 m2).mp hh)),
        if_neg (show ¬msgBeq m2 m1 = true from fun hh => h2 ((msgBeq_iff m2 m1).mp hh))]
      cases he1 : enc mt m1 <;> cases he2 : enc mt m2
      · rfl
      · rfl
      · rfl
      · exact congrArg ExactOut.result
          (congrArg (fun b => ExactOut.mk b 1 1) (decide_eq_decide.mpr eq_comm))
  · exact h1 (fun a b => decide (a = b)) []
      ⟨[⟨true, FieldMode.singularField, FieldKind.scalarK 8, none⟩]⟩
      (Msg.mk [(true, Val.scalar 1)] [] []) (Msg.mk [(false, Val.scalar 0)] [] [])
      (fun a b => decide_eq_decide.mpr eq_comm) (by decide) (by decide)

end UpbCompare
